import Mathlib

/-!
Task_1 publish/subscribe Topic.

Shallow embedding of `src/Task_1/src/Topic.cpp` (class `Topic`, declared in
`src/Task_1/include/Topic.h`) and of `Message` (`src/Task_1/include/Message.h`),
and of the loops of its two callers, `Consumer::consumeLoop`
(`src/Task_1/src/Consumer.cpp`) and `Producer::produceLoop`
(`src/Task_1/src/Producer.cpp`), as `src/Task_1/main.cpp` starts them.

Every member function of `Topic` runs its body while holding `mtx_`, so each
call is one atomic transition of the private state.  The only place where a
call gives the lock back before it is finished is `cv_.wait(lock, pred)` in
`consume`: the call is suspended, with the state untouched, as long as `pred`
is false, and the rest of the body runs under the lock from the evaluation of
`pred` that returned true.  `consume` is therefore embedded as a function with
three possible outcomes: the call returned, the call is waiting, or the call
indexed `consumerOffsets_` / `messages_` out of range.

`int` values (`Message::id_`, consumer ids) are `Int`; no arithmetic is done on
them in `Topic`.  Offsets are `size_t`; the only arithmetic on them is
`consumerOffsets_[index]++`, executed only when
`consumerOffsets_[index] < messages_.size()`, so the increment cannot wrap and
offsets are `Nat`.  The `int` arithmetic of the callers (`id_ * 1000 + i`,
`messagesReceived_++`) is checked against `INT_MIN` and `INT_MAX`; leaving the
range is an undefined outcome.  The text written by `Utils::print` and the
`sleep_for` calls are left out; the consumer loop records the messages it
prints.
-/

namespace PubSub

/-- Message value of `Message.h`: an `int` id and a `std::string` payload. -/
structure Message where
  id_ : Int
  data_ : String
deriving DecidableEq, Repr

/-- Private data members of class `Topic` (`Topic.h` lines 21-28); `mtx_` and
`cv_` carry no data. -/
structure Topic where
  name_ : String
  messages_ : List Message
  isShutdown_ : Bool
  consumers_ : List Int
  consumerOffsets_ : List Nat
deriving DecidableEq, Repr

/-- Constructor `Topic::Topic(std::string name)` (`Topic.cpp` line 4): empty
log, no consumers, `isShutdown_` false. -/
def Topic.init (name : String) : Topic :=
  { name_ := name, messages_ := [], isShutdown_ := false,
    consumers_ := [], consumerOffsets_ := [] }

/-- Linear search `std::find(consumers_.begin(), consumers_.end(), consumerId)`
followed by `it - consumers_.begin()` (`Topic.cpp` lines 21-26): position of the
first occurrence, `none` when the iterator is `end()`. -/
def find : List Int → Int → Option Nat
  | [], _ => none
  | c :: cs, consumerId =>
    if c = consumerId then some 0
    else match find cs consumerId with
      | none => none
      | some index => some (index + 1)

/-- Function `Topic::publish` (`Topic.cpp` lines 10-16). -/
def Topic.publish (t : Topic) (msg : Message) : Topic :=
  if t.isShutdown_ then t
  else { t with messages_ := t.messages_ ++ [msg] }

/-- Function `Topic::registerConsumer` (`Topic.cpp` lines 42-46): two
unconditional `push_back`s. -/
def Topic.registerConsumer (t : Topic) (consumerId : Int) : Topic :=
  { t with consumers_ := t.consumers_ ++ [consumerId],
           consumerOffsets_ := t.consumerOffsets_ ++ [0] }

/-- Function `Topic::shutdown` (`Topic.cpp` lines 48-52). -/
def Topic.shutdown (t : Topic) : Topic :=
  { t with isShutdown_ := true }

/-- Function `Topic::getName`. -/
def Topic.getName (t : Topic) : String := t.name_

/-- The lambda handed to `cv_.wait` (`Topic.cpp` lines 28-30):
`consumerOffsets_[index] < messages_.size() || isShutdown_`.  `none` when
`index` is not a valid position of `consumerOffsets_`. -/
def Topic.waitPredicate (t : Topic) (index : Nat) : Option Bool :=
  match t.consumerOffsets_[index]? with
  | none => none
  | some off => some (decide (off < t.messages_.length) || t.isShutdown_)

/-- Outcome of one call of `Topic::consume` started in a given state. -/
inductive ConsumeResult where
  /-- The call returned `ret`; `msg` is the value of the reference parameter and
  `t` the state of the topic when it returned. -/
  | returned (ret : Bool) (msg : Message) (t : Topic)
  /-- The wait predicate is false: the call is suspended in `cv_.wait` and has
  written nothing. -/
  | waiting
  /-- An out-of-range `operator[]` on `consumerOffsets_` or `messages_`. -/
  | undefined
deriving DecidableEq, Repr

/-- Function `Topic::consume` (`Topic.cpp` lines 18-40).  The argument `msg` is
the value the caller's reference parameter holds on entry. -/
def Topic.consume (t : Topic) (consumerId : Int) (msg : Message) : ConsumeResult :=
  match find t.consumers_ consumerId with
  | none => .returned false msg t
  | some index =>
    match t.waitPredicate index with
    | none => .undefined
    | some false => .waiting
    | some true =>
      match t.consumerOffsets_[index]? with
      | none => .undefined
      | some off =>
        if t.isShutdown_ && decide (off ≥ t.messages_.length) then
          .returned false msg t
        else
          match t.messages_[off]? with
          | none => .undefined
          | some m =>
            .returned true m
              { t with consumerOffsets_ := t.consumerOffsets_.set index (off + 1) }

/-- The cursor of a consumer id: the offset stored at the position `consume`
finds for it; `none` when the id is not in `consumers_` (or has no offset). -/
def Topic.cursor (t : Topic) (consumerId : Int) : Option Nat :=
  match find t.consumers_ consumerId with
  | none => none
  | some index => t.consumerOffsets_[index]?

/-- One call on a topic. `consume` carries the value of the caller's output
parameter on entry. -/
inductive Op where
  | publish (msg : Message)
  | registerConsumer (consumerId : Int)
  | consume (consumerId : Int) (msg : Message)
  | shutdown
deriving DecidableEq, Repr

/-- What a call produced for its caller. -/
inductive Ret where
  /-- A `void` member function returned. -/
  | done
  /-- Call `consume(consumerId, msg)` returned `ret` with the output parameter
  holding `msg`. -/
  | consumed (consumerId : Int) (ret : Bool) (msg : Message)
  /-- Call `consume(consumerId, _)` found its wait predicate false. -/
  | waiting (consumerId : Int)
deriving DecidableEq, Repr

/-- One critical section: the state after the call's turn with the lock and what
the caller got.  A `consume` whose predicate is false leaves the state as it is.
`none` is an out-of-range access. -/
def step (t : Topic) : Op → Option (Topic × Ret)
  | .publish msg => some (t.publish msg, .done)
  | .registerConsumer consumerId => some (t.registerConsumer consumerId, .done)
  | .shutdown => some (t.shutdown, .done)
  | .consume consumerId msg =>
    match t.consume consumerId msg with
    | .returned ret m t1 => some (t1, .consumed consumerId ret m)
    | .waiting => some (t, .waiting consumerId)
    | .undefined => none

/-- A sequence of critical sections in lock-acquisition order, with the results
in the same order. -/
def run (t : Topic) : List Op → Option (Topic × List Ret)
  | [] => some (t, [])
  | op :: ops =>
    match step t op with
    | none => none
    | some (t1, r) =>
      match run t1 ops with
      | none => none
      | some (t2, rs) => some (t2, r :: rs)

/-- Messages handed to consumer `consumerId` by its successful `consume` calls,
oldest first. -/
def received (consumerId : Int) : List Ret → List Message
  | [] => []
  | .consumed j true m :: rs =>
    if j = consumerId then m :: received consumerId rs else received consumerId rs
  | _ :: rs => received consumerId rs

/-- Messages of the `publish` calls of a sequence, in call order. -/
def published : List Op → List Message
  | [] => []
  | .publish m :: ops => m :: published ops
  | _ :: ops => published ops

/-- Is the call a `publish`? -/
def Op.isPublish : Op → Bool
  | .publish _ => true
  | _ => false

/-- Is the call `shutdown()`? -/
def Op.isShutdown : Op → Bool
  | .shutdown => true
  | _ => false

/-- Is the call a `consume` with this consumer id? -/
def Op.isConsumeBy (consumerId : Int) : Op → Bool
  | .consume j _ => decide (j = consumerId)
  | _ => false

/-- Is the call `registerConsumer` with this consumer id? -/
def Op.isRegisterOf (consumerId : Int) : Op → Bool
  | .registerConsumer j => decide (j = consumerId)
  | _ => false

/-- Output-parameter values of the `consume` calls made with this consumer id,
in call order. -/
def callsOf (consumerId : Int) : List Op → List Message
  | [] => []
  | .consume j msg :: ops =>
    if j = consumerId then msg :: callsOf consumerId ops else callsOf consumerId ops
  | _ :: ops => callsOf consumerId ops

/-- Results of the `consume` calls made with this consumer id, in call order. -/
def resultsOf (consumerId : Int) : List Ret → List Ret
  | [] => []
  | .consumed j ret m :: rs =>
    if j = consumerId then .consumed j ret m :: resultsOf consumerId rs
    else resultsOf consumerId rs
  | .waiting j :: rs =>
    if j = consumerId then .waiting j :: resultsOf consumerId rs
    else resultsOf consumerId rs
  | .done :: rs => resultsOf consumerId rs

/-- Class invariant of `Topic`: `consumers_` and `consumerOffsets_` are parallel
vectors and no offset points beyond the end of `messages_`. -/
def Topic.WF (t : Topic) : Prop :=
  t.consumers_.length = t.consumerOffsets_.length ∧
  ∀ off ∈ t.consumerOffsets_, off ≤ t.messages_.length

instance (t : Topic) : Decidable t.WF := by
  unfold Topic.WF
  infer_instance

/-- Number of log entries a consumer id has been handed so far: its cursor, and 0
for an id that is not registered. -/
def Topic.readCount (t : Topic) (consumerId : Int) : Nat :=
  (t.cursor consumerId).getD 0

/-- Two states that a caller whose consumer id satisfies `P` cannot tell apart:
both satisfy the class invariant, they hold the same log and flag, and every id
in `P` has the same cursor in both. -/
def Topic.AgreeOn (P : Int → Prop) (t u : Topic) : Prop :=
  t.WF ∧ u.WF ∧ t.messages_ = u.messages_ ∧ t.isShutdown_ = u.isShutdown_ ∧
  ∀ consumerId, P consumerId → t.cursor consumerId = u.cursor consumerId

/-- Largest value of `int`. -/
def INT_MAX : Int := 2147483647

/-- Smallest value of `int`. -/
def INT_MIN : Int := -2147483648

/-- Data members of class `Consumer` (`Consumer.h` lines 20-24) without the
thread handle. -/
structure Consumer where
  id_ : Int
  name_ : String
  running_ : Bool
  messagesReceived_ : Int
deriving DecidableEq, Repr

/-- Constructor `Consumer::Consumer(int id, std::string name)` (`Consumer.cpp`
line 6). -/
def Consumer.init (id : Int) (name : String) : Consumer :=
  { id_ := id, name_ := name, running_ := false, messagesReceived_ := 0 }

/-- The part of `Consumer::start` (`Consumer.cpp` lines 12-17) that runs in the
calling thread: `topic.registerConsumer(id_)` and `running_ = true`.  The new
thread runs `consumeLoop`. -/
def Consumer.start (c : Consumer) (topic : Topic) : Topic × Consumer :=
  (topic.registerConsumer c.id_, { c with running_ := true })

/-- Outcome of `Consumer::consumeLoop` run with no other thread taking the lock
in between.  `out` lists the messages handed to `Utils::print`, in order. -/
inductive LoopResult where
  /-- The loop was left (condition false or `break`). -/
  | finished (t : Topic) (c : Consumer) (out : List Message)
  /-- The current `consume` call is suspended in `cv_.wait`. -/
  | blocked (t : Topic) (c : Consumer) (out : List Message)
  /-- An out-of-range access in `consume`, or `messagesReceived_++` beyond
  `INT_MAX`. -/
  | undefined
deriving DecidableEq, Repr

/-- The `for` loop of `Consumer::consumeLoop` (`Consumer.cpp` lines 35-47) with
the given number of iterations left before `i < count` fails; `running_` is read
from the consumer at every test. -/
def consumeLoopFrom : Nat → Consumer → Topic → List Message → LoopResult
  | 0, c, t, out => .finished t c out
  | n + 1, c, t, out =>
    if c.running_ then
      match t.consume c.id_ ⟨0, ""⟩ with
      | .returned true msg t1 =>
        if c.messagesReceived_ < INT_MAX then
          consumeLoopFrom n { c with messagesReceived_ := c.messagesReceived_ + 1 } t1
            (out ++ [msg])
        else .undefined
      | .returned false _ t1 => .finished t1 c out
      | .waiting => .blocked t c out
      | .undefined => .undefined
    else .finished t c out

/-- Function `Consumer::consumeLoop` (`Consumer.cpp` lines 34-48). -/
def Consumer.consumeLoop (c : Consumer) (topic : Topic) (count : Int) : LoopResult :=
  consumeLoopFrom count.toNat c topic []

/-- Data members of class `Producer` (`Producer.h` lines 19-22) without the
thread handle. -/
structure Producer where
  id_ : Int
  name_ : String
  running_ : Bool
deriving DecidableEq, Repr

/-- Constructor `Producer::Producer(int id, std::string name)`. -/
def Producer.init (id : Int) (name : String) : Producer :=
  { id_ := id, name_ := name, running_ := false }

/-- The part of `Producer::start` that runs in the calling thread:
`running_ = true`. -/
def Producer.start (p : Producer) : Producer :=
  { p with running_ := true }

/-- The message built in iteration `i` of `Producer::produceLoop`
(`Producer.cpp` line 33):
`Message msg(id_ * 1000 + i, name_ + "_msg_" + std::to_string(i))`. -/
def Producer.messageAt (p : Producer) (i : Nat) : Message :=
  { id_ := p.id_ * 1000 + i, data_ := p.name_ ++ "_msg_" ++ toString i }

/-- Does `id_ * 1000 + i` stay inside `int`, the product included? -/
def Producer.inRange (p : Producer) (i : Nat) : Bool :=
  decide (INT_MIN ≤ p.id_ * 1000) && decide (p.id_ * 1000 ≤ INT_MAX) &&
  decide (INT_MIN ≤ p.id_ * 1000 + i) && decide (p.id_ * 1000 + i ≤ INT_MAX)

/-- The `for` loop of `Producer::produceLoop` (`Producer.cpp` lines 32-42) from
loop counter `i` with the given number of iterations left; the result is the
topic and the messages passed to `publish`, `none` on `int` overflow. -/
def produceLoopFrom : Nat → Nat → Producer → Topic → List Message →
    Option (Topic × List Message)
  | 0, _, _, t, out => some (t, out)
  | n + 1, i, p, t, out =>
    if p.running_ then
      if p.inRange i then
        produceLoopFrom n (i + 1) p (t.publish (p.messageAt i)) (out ++ [p.messageAt i])
      else none
    else some (t, out)

/-- Function `Producer::produceLoop` (`Producer.cpp` lines 31-43), run with no
other thread taking the lock in between. -/
def Producer.produceLoop (p : Producer) (topic : Topic) (count : Int) :
    Option (Topic × List Message) :=
  produceLoopFrom count.toNat 0 p topic []

/-- The messages a producer passes to `publish` in `n` iterations, in order. -/
def Producer.messages (p : Producer) (n : Nat) : List Message :=
  (List.range n).map p.messageAt

/-- Lock-acquisition order of two threads that each publish a list of messages
in order: `true` lets the first thread publish its next message, `false` the
second; when one list or the schedule is used up the rest follows. -/
def interleave : List Bool → List Message → List Message → List Message
  | _, [], ys => ys
  | _, x :: xs, [] => x :: xs
  | [], x :: xs, y :: ys => x :: xs ++ y :: ys
  | true :: s, x :: xs, y :: ys => x :: interleave s xs (y :: ys)
  | false :: s, x :: xs, y :: ys => y :: interleave s (x :: xs) ys

/-- The start of `main` (`main.cpp` lines 12-24): topic `news` and
`consumer1.start`, `consumer2.start`, `consumer3.start` for consumers
`(1, "C1")`, `(2, "C2")`, `(3, "C3")`; the topic and the three consumers after
the three registrations. -/
def mainStarted : Topic × Consumer × Consumer × Consumer :=
  let s1 := (Consumer.init 1 "C1").start (Topic.init "news")
  let s2 := (Consumer.init 2 "C2").start s1.1
  let s3 := (Consumer.init 3 "C3").start s2.1
  (s3.1, s1.2, s2.2, s3.2)

/-- Producer `(1, "P1")` of `main` after `start`. -/
def mainProducer1 : Producer := (Producer.init 1 "P1").start

/-- Producer `(2, "P2")` of `main` after `start`. -/
def mainProducer2 : Producer := (Producer.init 2 "P2").start

/-- Follows the words of the claim on repeated registration, to be compared
with `Topic.cursor`: "the offset stored at the position of the first
occurrence of that id in the consumer list"; `none` when the id does not occur
in the list. -/
def Topic.offsetAtFirstOccurrence (t : Topic) (consumerId : Int) : Option Nat :=
  if consumerId ∈ t.consumers_ then
    t.consumerOffsets_[t.consumers_.indexOf consumerId]?
  else none

/-! ## Basic facts about the embedding -/

theorem find_some_lt {cs : List Int} {consumerId : Int} {index : Nat}
    (h : find cs consumerId = some index) : index < cs.length ∧ cs[index]? = some consumerId := by
  induction cs generalizing index with
  | nil => simp [find] at h
  | cons c cs ih =>
    unfold find at h
    by_cases hc : c = consumerId
    · simp [hc] at h
      subst h
      simp [hc]
    · simp only [hc, if_false] at h
      cases hf : find cs consumerId with
      | none => simp [hf] at h
      | some j =>
        simp [hf] at h
        subst h
        have h2 := ih hf
        refine ⟨by simpa using h2.1, ?_⟩
        simpa using h2.2

theorem cursor_eq_some {t : Topic} {consumerId : Int} {c : Nat}
    (h : t.cursor consumerId = some c) :
    ∃ index, find t.consumers_ consumerId = some index ∧
      t.consumerOffsets_[index]? = some c := by
  unfold Topic.cursor at h
  cases hf : find t.consumers_ consumerId with
  | none => simp [hf] at h
  | some index => exact ⟨index, rfl, by simpa [hf] using h⟩

theorem find_push_back (cs : List Int) (j consumerId : Int) :
    find (cs ++ [j]) consumerId =
      match find cs consumerId with
      | some index => some index
      | none => if j = consumerId then some cs.length else none := by
  induction cs with
  | nil =>
    by_cases hj : j = consumerId <;> simp [find, hj]
  | cons c cs ih =>
    by_cases hc : c = consumerId
    · simp [find, hc]
    · simp only [List.cons_append, find, hc, if_false]
      cases hf : find cs consumerId with
      | some index =>
        rw [hf] at ih
        simp [ih]
      | none =>
        rw [hf] at ih
        have ih2 : find (cs.append [j]) consumerId =
            if j = consumerId then some cs.length else none := ih
        rw [ih2]
        by_cases hj : j = consumerId <;> simp [hj]

theorem init_WF (name : String) : (Topic.init name).WF := by
  simp [Topic.WF, Topic.init]

theorem WF_le {t : Topic} (hwf : t.WF) {consumerId : Int} {c : Nat}
    (h : t.cursor consumerId = some c) : c ≤ t.messages_.length := by
  obtain ⟨index, _, hoff⟩ := cursor_eq_some h
  exact hwf.2 c (List.getElem?_mem hoff)

theorem WF_readCount_le {t : Topic} (hwf : t.WF) (consumerId : Int) :
    t.readCount consumerId ≤ t.messages_.length := by
  unfold Topic.readCount
  cases h : t.cursor consumerId with
  | none => simp
  | some c => simpa using WF_le hwf h

theorem WF_cursor_of_find {t : Topic} (hwf : t.WF) {consumerId : Int} {index : Nat}
    (hf : find t.consumers_ consumerId = some index) :
    ∃ c, t.consumerOffsets_[index]? = some c := by
  have hlt : index < t.consumerOffsets_.length := hwf.1 ▸ (find_some_lt hf).1
  exact ⟨t.consumerOffsets_[index], List.getElem?_eq_getElem hlt⟩

/-- All the ways a call of `consume` can go. -/
theorem consume_cases (t : Topic) (consumerId : Int) (msg : Message) :
    (find t.consumers_ consumerId = none ∧
      t.consume consumerId msg = .returned false msg t) ∨
    (∃ index, find t.consumers_ consumerId = some index ∧
      t.consumerOffsets_[index]? = none ∧ t.consume consumerId msg = .undefined) ∨
    (∃ index c, find t.consumers_ consumerId = some index ∧
      t.consumerOffsets_[index]? = some c ∧ c < t.messages_.length ∧
      t.consume consumerId msg = .returned true (t.messages_[c]?.getD msg)
        { t with consumerOffsets_ := t.consumerOffsets_.set index (c + 1) }) ∨
    (∃ index c, find t.consumers_ consumerId = some index ∧
      t.consumerOffsets_[index]? = some c ∧ t.messages_.length ≤ c ∧
      t.isShutdown_ = true ∧ t.consume consumerId msg = .returned false msg t) ∨
    (∃ index c, find t.consumers_ consumerId = some index ∧
      t.consumerOffsets_[index]? = some c ∧ t.messages_.length ≤ c ∧
      t.isShutdown_ = false ∧ t.consume consumerId msg = .waiting) := by
  cases hf : find t.consumers_ consumerId with
  | none => left; simp [Topic.consume, hf]
  | some index =>
    right
    cases hoff : t.consumerOffsets_[index]? with
    | none => left; exact ⟨index, rfl, hoff, by simp [Topic.consume, Topic.waitPredicate, hf, hoff]⟩
    | some c =>
      right
      by_cases hlt : c < t.messages_.length
      · left
        have hm : t.messages_[c]? = some (t.messages_[c]) := List.getElem?_eq_getElem hlt
        have hnot : ¬ (t.messages_.length ≤ c) := Nat.not_le.mpr hlt
        exact ⟨index, c, rfl, hoff, hlt,
          by simp [Topic.consume, Topic.waitPredicate, hf, hoff, hlt, hm, hnot]⟩
      · right
        have hge : t.messages_.length ≤ c := Nat.not_lt.mp hlt
        cases hsd : t.isShutdown_ with
        | true =>
          left
          exact ⟨index, c, rfl, hoff, hge, rfl,
            by simp [Topic.consume, Topic.waitPredicate, hf, hoff, hsd, hge]⟩
        | false =>
          right
          exact ⟨index, c, rfl, hoff, hge, rfl,
            by simp [Topic.consume, Topic.waitPredicate, hf, hoff, hsd, hlt]⟩

theorem cursor_publish (t : Topic) (m : Message) (consumerId : Int) :
    (t.publish m).cursor consumerId = t.cursor consumerId := by
  unfold Topic.publish
  split <;> rfl

theorem cursor_shutdown (t : Topic) (consumerId : Int) :
    t.shutdown.cursor consumerId = t.cursor consumerId := rfl

theorem cursor_registerConsumer_of_some {t : Topic} {consumerId : Int} {c : Nat}
    (h : t.cursor consumerId = some c) (j : Int) :
    (t.registerConsumer j).cursor consumerId = some c := by
  obtain ⟨index, hf, hoff⟩ := cursor_eq_some h
  have hlt : index < t.consumerOffsets_.length := (List.getElem?_eq_some.mp hoff).1
  simp only [Topic.cursor, Topic.registerConsumer, find_push_back, hf]
  rw [List.getElem?_append_left hlt]
  exact hoff

theorem cursor_registerConsumer_of_none {t : Topic} {consumerId : Int}
    (hlen : t.consumers_.length = t.consumerOffsets_.length)
    (h : find t.consumers_ consumerId = none) (j : Int) :
    (t.registerConsumer j).cursor consumerId = if j = consumerId then some 0 else none := by
  simp only [Topic.cursor, Topic.registerConsumer, find_push_back, h]
  by_cases hj : j = consumerId
  · simp [hj, hlen]
  · simp [hj]

theorem readCount_registerConsumer {t : Topic} (hwf : t.WF) (j consumerId : Int) :
    (t.registerConsumer j).readCount consumerId = t.readCount consumerId := by
  unfold Topic.readCount
  cases hf : find t.consumers_ consumerId with
  | none =>
    have h0 : t.cursor consumerId = none := by simp [Topic.cursor, hf]
    rw [cursor_registerConsumer_of_none hwf.1 hf, h0]
    by_cases hj : j = consumerId <;> simp [hj]
  | some index =>
    obtain ⟨c, hoff⟩ := WF_cursor_of_find hwf hf
    have hc : t.cursor consumerId = some c := by simp [Topic.cursor, hf, hoff]
    rw [cursor_registerConsumer_of_some hc, hc]

theorem cursor_advance_self {t : Topic} {j : Int} {index c : Nat}
    (hf : find t.consumers_ j = some index) (hoff : t.consumerOffsets_[index]? = some c)
    (v : Nat) :
    ({ t with consumerOffsets_ := t.consumerOffsets_.set index v } : Topic).cursor j
      = some v := by
  have hlt : index < t.consumerOffsets_.length := (List.getElem?_eq_some.mp hoff).1
  simp [Topic.cursor, hf, hlt]

theorem cursor_advance_other {t : Topic} {j consumerId : Int} {index : Nat}
    (hf : find t.consumers_ j = some index) (hne : consumerId ≠ j) (v : Nat) :
    ({ t with consumerOffsets_ := t.consumerOffsets_.set index v } : Topic).cursor consumerId
      = t.cursor consumerId := by
  simp only [Topic.cursor]
  cases hfi : find t.consumers_ consumerId with
  | none => rfl
  | some i =>
    have h1 := (find_some_lt hf).2
    have h2 := (find_some_lt hfi).2
    have hidx : index ≠ i := by
      intro he
      subst he
      rw [h1] at h2
      exact hne (Option.some.inj h2).symm
    simp [List.getElem?_set_ne hidx]

theorem received_cons (consumerId : Int) (r : Ret) (rs : List Ret) :
    received consumerId (r :: rs) = received consumerId [r] ++ received consumerId rs := by
  cases r with
  | done => simp [received]
  | waiting j => simp [received]
  | consumed j ret m =>
    cases ret with
    | false => simp [received]
    | true => by_cases hj : j = consumerId <;> simp [received, hj]

theorem received_append (consumerId : Int) (rs1 rs2 : List Ret) :
    received consumerId (rs1 ++ rs2) = received consumerId rs1 ++ received consumerId rs2 := by
  induction rs1 with
  | nil => simp [received]
  | cons r rs1 ih =>
    rw [List.cons_append, received_cons, ih, received_cons consumerId r rs1, List.append_assoc]

theorem run_append (t : Topic) (ops1 ops2 : List Op) :
    run t (ops1 ++ ops2) =
      match run t ops1 with
      | none => none
      | some (t1, rs1) =>
        match run t1 ops2 with
        | none => none
        | some (t2, rs2) => some (t2, rs1 ++ rs2) := by
  induction ops1 generalizing t with
  | nil =>
    simp only [List.nil_append, run]
    cases run t ops2 with
    | none => rfl
    | some p => rfl
  | cons op ops1 ih =>
    rw [List.cons_append]
    simp only [run]
    cases hs : step t op with
    | none => rfl
    | some p =>
      obtain ⟨t1, r⟩ := p
      simp only [ih]
      cases run t1 ops1 with
      | none => rfl
      | some q =>
        obtain ⟨t2, rs1⟩ := q
        cases h2 : run t2 ops2 <;> simp [h2]

/-- One critical section started in a state satisfying the class invariant: it
is defined, keeps the invariant and the shutdown flag, only appends to the log,
and what it hands to a consumer is the log entry at that consumer's cursor. -/
theorem step_inv {t : Topic} (hwf : t.WF) (op : Op) :
    ∃ t1 r, step t op = some (t1, r) ∧ t1.WF ∧
      (t.isShutdown_ = true → t1.isShutdown_ = true) ∧
      (∃ tail, t1.messages_ = t.messages_ ++ tail) ∧
      ∀ consumerId, t.messages_.take (t.readCount consumerId) ++ received consumerId [r]
        = t1.messages_.take (t1.readCount consumerId) := by
  cases op with
  | publish m =>
    refine ⟨t.publish m, .done, rfl, ?_⟩
    cases hsd : t.isShutdown_ with
    | true =>
      have hp : t.publish m = t := by simp [Topic.publish, hsd]
      rw [hp]
      exact ⟨hwf, fun _ => hsd, ⟨[], by simp⟩, fun _ => by simp [received]⟩
    | false =>
      have hp : t.publish m = { t with messages_ := t.messages_ ++ [m] } := by
        simp [Topic.publish, hsd]
      refine ⟨?_, by simp, ⟨[m], by rw [hp]⟩, ?_⟩
      · rw [hp]
        refine ⟨hwf.1, fun off hoff => ?_⟩
        have := hwf.2 off hoff
        simp only [List.length_append, List.length_singleton]
        omega
      · intro consumerId
        have hrc : (t.publish m).readCount consumerId = t.readCount consumerId := by
          simp [Topic.readCount, cursor_publish]
        rw [hrc, hp]
        simp only [received, List.append_nil]
        exact (List.take_append_of_le_length (WF_readCount_le hwf consumerId)).symm
  | registerConsumer j =>
    refine ⟨t.registerConsumer j, .done, rfl, ?_, fun h => h, ⟨[], by simp [Topic.registerConsumer]⟩, ?_⟩
    · refine ⟨by simp [Topic.registerConsumer, hwf.1], fun off hoff => ?_⟩
      simp only [Topic.registerConsumer, List.mem_append, List.mem_singleton] at hoff
      rcases hoff with h | h
      · exact hwf.2 off h
      · simp [h]
    · intro consumerId
      rw [readCount_registerConsumer hwf]
      simp [received, Topic.registerConsumer]
  | shutdown =>
    refine ⟨t.shutdown, .done, rfl, hwf, fun _ => rfl, ⟨[], by simp [Topic.shutdown]⟩, ?_⟩
    intro consumerId
    simp [received, Topic.shutdown, Topic.readCount, Topic.cursor]
  | consume j msg =>
    rcases consume_cases t j msg with ⟨_, hc⟩ | ⟨index, hf, hoff, _⟩ |
      ⟨index, c, hf, hoff, hlt, hc⟩ | ⟨index, c, _, _, _, _, hc⟩ | ⟨index, c, _, _, _, _, hc⟩
    · exact ⟨t, .consumed j false msg, by simp [step, hc], hwf, fun h => h, ⟨[], by simp⟩,
        fun _ => by simp [received]⟩
    · obtain ⟨c, hc⟩ := WF_cursor_of_find hwf hf
      rw [hoff] at hc
      cases hc
    · have hm : t.messages_[c]? = some (t.messages_[c]) := List.getElem?_eq_getElem hlt
      refine ⟨{ t with consumerOffsets_ := t.consumerOffsets_.set index (c + 1) },
        .consumed j true (t.messages_[c]), ?_, ?_, fun h => h, ⟨[], by simp⟩, ?_⟩
      · simp [step, hc, hm]
      · refine ⟨by simp [hwf.1], fun off ho => ?_⟩
        rcases List.mem_or_eq_of_mem_set ho with h | h
        · exact hwf.2 off h
        · subst h
          exact hlt
      · intro consumerId
        by_cases hj : consumerId = j
        · subst hj
          have h0 : t.readCount consumerId = c := by
            simp [Topic.readCount, Topic.cursor, hf, hoff]
          have h1 : ({ t with consumerOffsets_ := t.consumerOffsets_.set index (c + 1) }
              : Topic).readCount consumerId = c + 1 := by
            simp [Topic.readCount, cursor_advance_self hf hoff]
          rw [h0, h1, List.take_succ, hm]
          simp [received]
        · have h1 : ({ t with consumerOffsets_ := t.consumerOffsets_.set index (c + 1) }
              : Topic).readCount consumerId = t.readCount consumerId := by
            simp [Topic.readCount, cursor_advance_other hf hj]
          rw [h1]
          have hj2 : ¬ j = consumerId := fun h => hj h.symm
          simp [received, hj2]
    · exact ⟨t, .consumed j false msg, by simp [step, hc], hwf, fun h => h, ⟨[], by simp⟩,
        fun _ => by simp [received]⟩
    · exact ⟨t, .waiting j, by simp [step, hc], hwf, fun h => h, ⟨[], by simp⟩,
        fun _ => by simp [received]⟩

/-- Any sequence of critical sections started in a state satisfying the class
invariant is defined; the invariant and a set shutdown flag are kept, the log
only grows at its end, and every consumer has received the log entries between
its old and its new cursor. -/
theorem run_inv {t : Topic} (hwf : t.WF) (ops : List Op) :
    ∃ t1 rs, run t ops = some (t1, rs) ∧ t1.WF ∧
      (t.isShutdown_ = true → t1.isShutdown_ = true) ∧
      (∃ tail, t1.messages_ = t.messages_ ++ tail) ∧
      ∀ consumerId, t.messages_.take (t.readCount consumerId) ++ received consumerId rs
        = t1.messages_.take (t1.readCount consumerId) := by
  induction ops generalizing t with
  | nil =>
    exact ⟨t, [], rfl, hwf, fun h => h, ⟨[], by simp⟩, fun _ => by simp [received]⟩
  | cons op ops ih =>
    obtain ⟨t1, r, hstep, hwf1, hsd1, ⟨tail1, hlog1⟩, hrec1⟩ := step_inv hwf op
    obtain ⟨t2, rs, hrun, hwf2, hsd2, ⟨tail2, hlog2⟩, hrec2⟩ := ih hwf1
    refine ⟨t2, r :: rs, by simp [run, hstep, hrun], hwf2, fun h => hsd2 (hsd1 h),
      ⟨tail1 ++ tail2, by rw [hlog2, hlog1, List.append_assoc]⟩, ?_⟩
    intro consumerId
    rw [received_cons, ← List.append_assoc, hrec1, hrec2]

/-- From a fresh topic, what a consumer has received is the first `readCount`
entries of the log. -/
theorem received_eq_take (name : String) (ops : List Op) :
    ∃ t rs, run (Topic.init name) ops = some (t, rs) ∧ t.WF ∧
      ∀ consumerId, received consumerId rs = t.messages_.take (t.readCount consumerId) := by
  obtain ⟨t, rs, hrun, hwf, _, _, hrec⟩ := run_inv (init_WF name) ops
  refine ⟨t, rs, hrun, hwf, fun consumerId => ?_⟩
  have h := hrec consumerId
  simpa [Topic.init] using h

/-- Shape of the state after one critical section. -/
theorem step_shape {t : Topic} {op : Op} {t1 : Topic} {r : Ret}
    (h : step t op = some (t1, r)) :
    (∃ m, op = .publish m ∧ t1 = t.publish m ∧ r = .done) ∨
    (∃ j, op = .registerConsumer j ∧ t1 = t.registerConsumer j ∧ r = .done) ∨
    (op = .shutdown ∧ t1 = t.shutdown ∧ r = .done) ∨
    (∃ j msg, op = .consume j msg ∧ t1 = t ∧ (r = .consumed j false msg ∨ r = .waiting j)) ∨
    (∃ j msg index c, op = .consume j msg ∧ find t.consumers_ j = some index ∧
      t.consumerOffsets_[index]? = some c ∧ c < t.messages_.length ∧
      t1 = { t with consumerOffsets_ := t.consumerOffsets_.set index (c + 1) } ∧
      ∃ m, t.messages_[c]? = some m ∧ r = .consumed j true m) := by
  cases op with
  | publish m =>
    simp only [step, Option.some.injEq, Prod.mk.injEq] at h
    exact Or.inl ⟨m, rfl, h.1.symm, h.2.symm⟩
  | registerConsumer j =>
    simp only [step, Option.some.injEq, Prod.mk.injEq] at h
    exact Or.inr (Or.inl ⟨j, rfl, h.1.symm, h.2.symm⟩)
  | shutdown =>
    simp only [step, Option.some.injEq, Prod.mk.injEq] at h
    exact Or.inr (Or.inr (Or.inl ⟨rfl, h.1.symm, h.2.symm⟩))
  | consume j msg =>
    right; right; right
    rcases consume_cases t j msg with ⟨_, hc⟩ | ⟨index, _, _, hc⟩ |
      ⟨index, c, hf, hoff, hlt, hc⟩ | ⟨index, c, _, _, _, _, hc⟩ | ⟨index, c, _, _, _, _, hc⟩
    · simp only [step, hc, Option.some.injEq, Prod.mk.injEq] at h
      exact Or.inl ⟨j, msg, rfl, h.1.symm, Or.inl h.2.symm⟩
    · simp [step, hc] at h
    · have hm : t.messages_[c]? = some (t.messages_[c]) := List.getElem?_eq_getElem hlt
      rw [hm] at hc
      simp only [step, hc, Option.getD_some, Option.some.injEq, Prod.mk.injEq] at h
      exact Or.inr ⟨j, msg, index, c, rfl, hf, hoff, hlt, h.1.symm, t.messages_[c], hm, h.2.symm⟩
    · simp only [step, hc, Option.some.injEq, Prod.mk.injEq] at h
      exact Or.inl ⟨j, msg, rfl, h.1.symm, Or.inl h.2.symm⟩
    · simp only [step, hc, Option.some.injEq, Prod.mk.injEq] at h
      exact Or.inl ⟨j, msg, rfl, h.1.symm, Or.inr h.2.symm⟩

theorem run_cons_some {t : Topic} {op : Op} {ops : List Op} {t2 : Topic} {rs : List Ret}
    (h : run t (op :: ops) = some (t2, rs)) :
    ∃ t1 r rs1, step t op = some (t1, r) ∧ run t1 ops = some (t2, rs1) ∧ rs = r :: rs1 := by
  simp only [run] at h
  cases hs : step t op with
  | none => simp [hs] at h
  | some p =>
    obtain ⟨t1, r⟩ := p
    cases hr : run t1 ops with
    | none => simp [hs, hr] at h
    | some q =>
      obtain ⟨t3, rs1⟩ := q
      simp only [hs, hr, Option.some.injEq, Prod.mk.injEq] at h
      exact ⟨t1, r, rs1, rfl, by rw [hr, h.1], h.2.symm⟩

theorem published_cons (op : Op) (ops : List Op) :
    published (op :: ops) = published [op] ++ published ops := by
  cases op <;> simp [published]

theorem published_append (ops1 ops2 : List Op) :
    published (ops1 ++ ops2) = published ops1 ++ published ops2 := by
  induction ops1 with
  | nil => simp [published]
  | cons op ops1 ih =>
    rw [List.cons_append, published_cons, ih, published_cons op ops1, List.append_assoc]

theorem published_eq_nil {ops : List Op} (h : ∀ op ∈ ops, op.isPublish = false) :
    published ops = [] := by
  induction ops with
  | nil => rfl
  | cons op ops ih =>
    have h1 := h op (List.mem_cons_self _ _)
    have h2 := ih (fun o ho => h o (List.mem_cons_of_mem _ ho))
    cases op <;> simp_all [published, Op.isPublish]

/-- A call that is not a `consume` by `consumerId` leaves that id's cursor. -/
theorem step_cursor_frame {t : Topic} {op : Op} {consumerId : Int}
    (hop : op.isConsumeBy consumerId = false) {t1 : Topic} {r : Ret}
    (hstep : step t op = some (t1, r)) {c : Nat} (hcur : t.cursor consumerId = some c) :
    t1.cursor consumerId = some c := by
  rcases step_shape hstep with ⟨m, _, h1, _⟩ | ⟨j, _, h1, _⟩ | ⟨_, h1, _⟩ |
    ⟨j, msg, _, h1, _⟩ | ⟨j, msg, index, c1, hop1, hf, _, _, h1, _⟩
  · rw [h1, cursor_publish]; exact hcur
  · rw [h1]; exact cursor_registerConsumer_of_some hcur j
  · rw [h1]; exact hcur
  · rw [h1]; exact hcur
  · subst hop1
    have hne : consumerId ≠ j := by
      intro he
      simp [Op.isConsumeBy, he] at hop
    rw [h1, cursor_advance_other hf hne]
    exact hcur

/-- While the flag is unset, a call other than `shutdown` keeps it unset and
extends the log by exactly the message it published, if any. -/
theorem step_open {t : Topic} {op : Op} (hop : op.isShutdown = false)
    (hsd : t.isShutdown_ = false) {t1 : Topic} {r : Ret}
    (hstep : step t op = some (t1, r)) :
    t1.isShutdown_ = false ∧ t1.messages_ = t.messages_ ++ published [op] := by
  rcases step_shape hstep with ⟨m, hop1, h1, _⟩ | ⟨j, hop1, h1, _⟩ | ⟨hop1, h1, _⟩ |
    ⟨j, msg, hop1, h1, _⟩ | ⟨j, msg, index, c1, hop1, _, _, _, h1, _⟩
  · subst hop1; rw [h1]
    simp [Topic.publish, hsd, published]
  · subst hop1; rw [h1]
    simp [Topic.registerConsumer, hsd, published]
  · subst hop1
    simp [Op.isShutdown] at hop
  · subst hop1; rw [h1]
    simp [hsd, published]
  · subst hop1; rw [h1]
    simp [hsd, published]

/-- Once the flag is set, no call changes the log or the flag. -/
theorem step_closed {t : Topic} {op : Op} (hsd : t.isShutdown_ = true)
    {t1 : Topic} {r : Ret} (hstep : step t op = some (t1, r)) :
    t1.isShutdown_ = true ∧ t1.messages_ = t.messages_ := by
  rcases step_shape hstep with ⟨m, _, h1, _⟩ | ⟨j, _, h1, _⟩ | ⟨_, h1, _⟩ |
    ⟨j, msg, _, h1, _⟩ | ⟨j, msg, index, c1, _, _, _, _, h1, _⟩
  · rw [h1]; simp [Topic.publish, hsd]
  · rw [h1]; simp [Topic.registerConsumer, hsd]
  · rw [h1]; simp [Topic.shutdown]
  · rw [h1]; simp [hsd]
  · rw [h1]; simp [hsd]

/-- An id stays unregistered as long as it is not passed to `registerConsumer`. -/
theorem step_unregistered {t : Topic} {op : Op} {consumerId : Int}
    (hop : op.isRegisterOf consumerId = false)
    (hnone : find t.consumers_ consumerId = none) {t1 : Topic} {r : Ret}
    (hstep : step t op = some (t1, r)) :
    find t1.consumers_ consumerId = none := by
  rcases step_shape hstep with ⟨m, _, h1, _⟩ | ⟨j, hop1, h1, _⟩ | ⟨_, h1, _⟩ |
    ⟨j, msg, _, h1, _⟩ | ⟨j, msg, index, c1, _, _, _, _, h1, _⟩
  · rw [h1]
    unfold Topic.publish
    split <;> exact hnone
  · subst hop1
    have hne : ¬ j = consumerId := by
      intro he
      simp [Op.isRegisterOf, he] at hop
    rw [h1]
    simp [Topic.registerConsumer, find_push_back, hnone, hne]
  · rw [h1]; exact hnone
  · rw [h1]; exact hnone
  · rw [h1]; exact hnone

theorem run_cursor_frame {t : Topic} {ops : List Op} {consumerId : Int}
    (hops : ∀ op ∈ ops, op.isConsumeBy consumerId = false) {t1 : Topic} {rs : List Ret}
    (hrun : run t ops = some (t1, rs)) {c : Nat} (hcur : t.cursor consumerId = some c) :
    t1.cursor consumerId = some c := by
  induction ops generalizing t rs with
  | nil =>
    simp only [run, Option.some.injEq, Prod.mk.injEq] at hrun
    rw [← hrun.1]; exact hcur
  | cons op ops ih =>
    obtain ⟨t0, r, rs1, hstep, hrest, _⟩ := run_cons_some hrun
    exact ih (fun o ho => hops o (List.mem_cons_of_mem _ ho)) hrest
      (step_cursor_frame (hops op (List.mem_cons_self _ _)) hstep hcur)

theorem run_open {t : Topic} {ops : List Op}
    (hops : ∀ op ∈ ops, op.isShutdown = false) (hsd : t.isShutdown_ = false)
    {t1 : Topic} {rs : List Ret} (hrun : run t ops = some (t1, rs)) :
    t1.isShutdown_ = false ∧ t1.messages_ = t.messages_ ++ published ops := by
  induction ops generalizing t rs with
  | nil =>
    simp only [run, Option.some.injEq, Prod.mk.injEq] at hrun
    rw [← hrun.1]; simp [hsd, published]
  | cons op ops ih =>
    obtain ⟨t0, r, rs1, hstep, hrest, _⟩ := run_cons_some hrun
    obtain ⟨h1, h2⟩ := step_open (hops op (List.mem_cons_self _ _)) hsd hstep
    obtain ⟨h3, h4⟩ := ih (fun o ho => hops o (List.mem_cons_of_mem _ ho)) h1 hrest
    exact ⟨h3, by rw [h4, h2, published_cons op ops, List.append_assoc]⟩

theorem run_closed {t : Topic} {ops : List Op} (hsd : t.isShutdown_ = true)
    {t1 : Topic} {rs : List Ret} (hrun : run t ops = some (t1, rs)) :
    t1.isShutdown_ = true ∧ t1.messages_ = t.messages_ := by
  induction ops generalizing t rs with
  | nil =>
    simp only [run, Option.some.injEq, Prod.mk.injEq] at hrun
    rw [← hrun.1]; exact ⟨hsd, rfl⟩
  | cons op ops ih =>
    obtain ⟨t0, r, rs1, hstep, hrest, _⟩ := run_cons_some hrun
    obtain ⟨h1, h2⟩ := step_closed hsd hstep
    obtain ⟨h3, h4⟩ := ih h1 hrest
    exact ⟨h3, by rw [h4, h2]⟩

theorem run_unregistered {t : Topic} {ops : List Op} {consumerId : Int}
    (hops : ∀ op ∈ ops, op.isRegisterOf consumerId = false)
    (hnone : find t.consumers_ consumerId = none) {t1 : Topic} {rs : List Ret}
    (hrun : run t ops = some (t1, rs)) :
    find t1.consumers_ consumerId = none := by
  induction ops generalizing t rs with
  | nil =>
    simp only [run, Option.some.injEq, Prod.mk.injEq] at hrun
    rw [← hrun.1]; exact hnone
  | cons op ops ih =>
    obtain ⟨t0, r, rs1, hstep, hrest, _⟩ := run_cons_some hrun
    exact ih (fun o ho => hops o (List.mem_cons_of_mem _ ho))
      (step_unregistered (hops op (List.mem_cons_self _ _)) hnone hstep) hrest

theorem consume_of_lt {t : Topic} {consumerId : Int} {c : Nat}
    (hcur : t.cursor consumerId = some c) (hlt : c < t.messages_.length) (msg : Message) :
    ∃ m t1, t.consume consumerId msg = .returned true m t1 ∧ t.messages_[c]? = some m ∧
      t1.cursor consumerId = some (c + 1) ∧ t1.messages_ = t.messages_ ∧
      t1.isShutdown_ = t.isShutdown_ := by
  obtain ⟨index, hf, hoff⟩ := cursor_eq_some hcur
  rcases consume_cases t consumerId msg with ⟨hn, _⟩ | ⟨i, hfi, hn, _⟩ |
    ⟨i, c1, hfi, hoffi, _, hc⟩ | ⟨i, c1, hfi, hoffi, hge, _, _⟩ | ⟨i, c1, hfi, hoffi, hge, _, _⟩
  · rw [hf] at hn; cases hn
  · rw [hf] at hfi; cases hfi; rw [hoff] at hn; cases hn
  · rw [hf] at hfi; cases hfi; rw [hoff] at hoffi; cases hoffi
    have hm : t.messages_[c]? = some (t.messages_[c]) := List.getElem?_eq_getElem hlt
    rw [hm] at hc
    exact ⟨t.messages_[c], _, hc, hm, cursor_advance_self hf hoff _, rfl, rfl⟩
  · rw [hf] at hfi; cases hfi; rw [hoff] at hoffi; cases hoffi; omega
  · rw [hf] at hfi; cases hfi; rw [hoff] at hoffi; cases hoffi; omega

theorem consume_of_ge {t : Topic} {consumerId : Int} {c : Nat}
    (hcur : t.cursor consumerId = some c) (hge : t.messages_.length ≤ c)
    (hsd : t.isShutdown_ = true) (msg : Message) :
    t.consume consumerId msg = .returned false msg t := by
  obtain ⟨index, hf, hoff⟩ := cursor_eq_some hcur
  simp [Topic.consume, Topic.waitPredicate, hf, hoff, hsd, hge]

/-- Consumer `consumerId` makes as many `consume` calls in a row as fit into its
backlog: each returns true with the next log entry. -/
theorem run_drain (bufs : List Message) {t : Topic} {consumerId : Int} {c : Nat}
    (hcur : t.cursor consumerId = some c) (hb : c + bufs.length ≤ t.messages_.length) :
    ∃ t1, run t (bufs.map (Op.consume consumerId))
        = some (t1, ((t.messages_.drop c).take bufs.length).map (Ret.consumed consumerId true)) ∧
      t1.cursor consumerId = some (c + bufs.length) ∧ t1.messages_ = t.messages_ ∧
      t1.isShutdown_ = t.isShutdown_ := by
  induction bufs generalizing t c with
  | nil => exact ⟨t, by simp [run], by simpa using hcur, rfl, rfl⟩
  | cons buf bufs ih =>
    have hlt : c < t.messages_.length := by
      simp only [List.length_cons] at hb; omega
    obtain ⟨m, t0, hcons, hm, hcur0, hlog0, hsd0⟩ := consume_of_lt hcur hlt buf
    have hb0 : c + 1 + bufs.length ≤ t0.messages_.length := by
      rw [hlog0]; simp only [List.length_cons] at hb; omega
    obtain ⟨t1, hrun1, hcur1, hlog1, hsd1⟩ := ih hcur0 hb0
    have hmc : t.messages_[c] = m := by
      rw [List.getElem?_eq_getElem hlt] at hm
      exact Option.some.inj hm
    refine ⟨t1, ?_, ?_, by rw [hlog1, hlog0], by rw [hsd1, hsd0]⟩
    · simp only [List.map_cons, run, step, hcons, hrun1, hlog0, List.length_cons]
      rw [List.drop_eq_getElem_cons hlt, List.take_succ_cons, List.map_cons, hmc]
    · rw [hcur1, List.length_cons]
      congr 1
      omega

/-- After shutdown a consumer that has read the whole log gets false from every
`consume`, and the state stays as it is. -/
theorem run_drained (bufs : List Message) {t : Topic} {consumerId : Int} {c : Nat}
    (hcur : t.cursor consumerId = some c) (hge : t.messages_.length ≤ c)
    (hsd : t.isShutdown_ = true) :
    run t (bufs.map (Op.consume consumerId))
      = some (t, bufs.map (Ret.consumed consumerId false)) := by
  induction bufs with
  | nil => simp [run]
  | cons buf bufs ih =>
    simp [run, step, consume_of_ge hcur hge hsd buf, ih]

theorem resultsOf_other {t : Topic} {op : Op} {consumerId : Int}
    (hop : op.isConsumeBy consumerId = false) {t1 : Topic} {r : Ret}
    (hstep : step t op = some (t1, r)) (rs : List Ret) :
    resultsOf consumerId (r :: rs) = resultsOf consumerId rs := by
  rcases step_shape hstep with ⟨m, _, _, hr⟩ | ⟨j, _, _, hr⟩ | ⟨_, _, hr⟩ |
    ⟨j, msg, hop1, _, hr⟩ | ⟨j, msg, index, c1, hop1, _, _, _, _, m, _, hr⟩
  · rw [hr]; simp [resultsOf]
  · rw [hr]; simp [resultsOf]
  · rw [hr]; simp [resultsOf]
  · subst hop1
    have hne : ¬ j = consumerId := by
      intro he
      simp [Op.isConsumeBy, he] at hop
    rcases hr with hr | hr <;> rw [hr] <;> simp [resultsOf, hne]
  · subst hop1
    have hne : ¬ j = consumerId := by
      intro he
      simp [Op.isConsumeBy, he] at hop
    rw [hr]; simp [resultsOf, hne]

theorem callsOf_other {op : Op} {consumerId : Int}
    (hop : op.isConsumeBy consumerId = false) (ops : List Op) :
    callsOf consumerId (op :: ops) = callsOf consumerId ops := by
  cases op with
  | consume j msg =>
    have hne : ¬ j = consumerId := by
      intro he
      simp [Op.isConsumeBy, he] at hop
    simp [callsOf, hne]
  | publish m => simp [callsOf]
  | registerConsumer j => simp [callsOf]
  | shutdown => simp [callsOf]

/-- On a shut-down topic, whatever calls are made by whomever, the `consume`
calls of one consumer id first return its backlog in log order and then
return false. -/
theorem run_after_shutdown (ops : List Op) {t : Topic} (hwf : t.WF)
    (hsd : t.isShutdown_ = true) (consumerId : Int) {c : Nat}
    (hcur : t.cursor consumerId = some c) :
    ∃ t1 rs, run t ops = some (t1, rs) ∧ t1.messages_ = t.messages_ ∧
      resultsOf consumerId rs =
        ((t.messages_.drop c).take (callsOf consumerId ops).length).map
            (Ret.consumed consumerId true) ++
          ((callsOf consumerId ops).drop (t.messages_.length - c)).map
            (Ret.consumed consumerId false) := by
  induction ops generalizing t c with
  | nil => exact ⟨t, [], rfl, rfl, by simp [resultsOf, callsOf]⟩
  | cons op ops ih =>
    obtain ⟨t0, r, hstep, hwf0, hsd0, _, _⟩ := step_inv hwf op
    have hlog0 := (step_closed hsd hstep).2
    cases hby : op.isConsumeBy consumerId with
    | false =>
      have hcur0 := step_cursor_frame hby hstep hcur
      obtain ⟨t1, rs, hrun, hlog1, hres⟩ := ih hwf0 (hsd0 hsd) hcur0
      refine ⟨t1, r :: rs, by simp [run, hstep, hrun], by rw [hlog1, hlog0], ?_⟩
      rw [resultsOf_other hby hstep, callsOf_other hby, hres, hlog0]
    | true =>
      cases op with
      | publish m => simp [Op.isConsumeBy] at hby
      | registerConsumer j => simp [Op.isConsumeBy] at hby
      | shutdown => simp [Op.isConsumeBy] at hby
      | consume j buf =>
        have hj : j = consumerId := by simpa [Op.isConsumeBy] using hby
        subst hj
        by_cases hlt : c < t.messages_.length
        · obtain ⟨m, t2, hcons, hm, hcur2, hlog2, hsd2⟩ := consume_of_lt hcur hlt buf
          have hst : step t (.consume j buf) = some (t2, .consumed j true m) := by
            simp [step, hcons]
          rw [hst] at hstep
          simp only [Option.some.injEq, Prod.mk.injEq] at hstep
          obtain ⟨h1, h2⟩ := hstep
          subst h1
          obtain ⟨t1, rs, hrun, hlog1, hres⟩ := ih hwf0 (hsd0 hsd) hcur2
          have hmc : t.messages_[c] = m := by
            rw [List.getElem?_eq_getElem hlt] at hm
            exact Option.some.inj hm
          refine ⟨t1, .consumed j true m :: rs, by simp [run, hst, hrun],
            by rw [hlog1, hlog2], ?_⟩
          have hsub : t.messages_.length - c = (t.messages_.length - (c + 1)) + 1 := by omega
          simp only [resultsOf, callsOf, if_true, hres, hlog2, List.length_cons]
          rw [List.drop_eq_getElem_cons hlt, List.take_succ_cons, List.map_cons, hmc, hsub,
            List.drop_succ_cons, List.cons_append]
        · have hge : t.messages_.length ≤ c := Nat.not_lt.mp hlt
          have hcons := consume_of_ge hcur hge hsd buf
          have hst : step t (.consume j buf) = some (t, .consumed j false buf) := by
            simp [step, hcons]
          obtain ⟨t1, rs, hrun, hlog1, hres⟩ := ih hwf hsd hcur
          refine ⟨t1, .consumed j false buf :: rs, by simp [run, hst, hrun], hlog1, ?_⟩
          have hz : t.messages_.length - c = 0 := by omega
          have hd : t.messages_.drop c = [] := List.drop_eq_nil_of_le hge
          simp only [resultsOf, callsOf, if_true, hres, hz, hd, List.take_nil, List.map_nil,
            List.nil_append, List.drop_zero, List.map_cons]

theorem run_cons_of {t t1 t2 : Topic} {op : Op} {ops : List Op} {r : Ret} {rs : List Ret}
    (hstep : step t op = some (t1, r)) (hrun : run t1 ops = some (t2, rs)) :
    run t (op :: ops) = some (t2, r :: rs) := by
  simp [run, hstep, hrun]

theorem run_append_of {t t1 t2 : Topic} {ops1 ops2 : List Op} {rs1 rs2 : List Ret}
    (h1 : run t ops1 = some (t1, rs1)) (h2 : run t1 ops2 = some (t2, rs2)) :
    run t (ops1 ++ ops2) = some (t2, rs1 ++ rs2) := by
  rw [run_append, h1]
  simp [h2]

theorem registerConsumer_WF {t : Topic} (hwf : t.WF) (j : Int) : (t.registerConsumer j).WF := by
  obtain ⟨t1, r, hstep, hwf1, _⟩ := step_inv hwf (.registerConsumer j)
  simp only [step, Option.some.injEq, Prod.mk.injEq] at hstep
  rw [hstep.1]
  exact hwf1

theorem shutdown_WF {t : Topic} (hwf : t.WF) : t.shutdown.WF := hwf

/-- A consumer id whose cursor is 0 right after a `registerConsumer` call on a
topic that is not shut down, followed by calls that neither shut the topic down
nor consume with that id: as many `consume` calls as the log then has entries
return the whole log in order. -/
theorem register_then_read {t0 : Topic} (hwf : t0.WF) (hsd : t0.isShutdown_ = false)
    {consumerId : Int} (hc0 : (t0.registerConsumer consumerId).cursor consumerId = some 0)
    {mid : List Op}
    (hmid : ∀ op ∈ mid, op.isShutdown = false ∧ op.isConsumeBy consumerId = false)
    (bufs : List Message)
    (hn : bufs.length = t0.messages_.length + (published mid).length) :
    ∃ t rs t1, run t0 (.registerConsumer consumerId :: mid) = some (t, rs) ∧
      t.messages_ = t0.messages_ ++ published mid ∧
      run t (bufs.map (Op.consume consumerId))
        = some (t1, t.messages_.map (Ret.consumed consumerId true)) := by
  obtain ⟨t, rs, hrun, _, _, _, _⟩ := run_inv (registerConsumer_WF hwf consumerId) mid
  have hopen := run_open (fun o ho => (hmid o ho).1)
    (show (t0.registerConsumer consumerId).isShutdown_ = false from hsd) hrun
  have hlog : t.messages_ = t0.messages_ ++ published mid := hopen.2
  have hcur := run_cursor_frame (fun o ho => (hmid o ho).2) hrun hc0
  have hlen : bufs.length = t.messages_.length := by
    rw [hlog, List.length_append]; exact hn
  obtain ⟨t1, hdrain, _, _, _⟩ := run_drain bufs hcur (by omega)
  refine ⟨t, .done :: rs, t1, run_cons_of rfl hrun, hlog, ?_⟩
  rw [hdrain, hlen, List.drop_zero, List.take_length]

/-! ## Claims about single calls -/

/-- C1: for a registered consumer id whose cursor `c` is strictly below the log
length, `consume` returns true, hands out the log entry at index `c`, moves
that cursor to `c + 1`, and leaves the log, the consumer list, the name and the
shutdown flag as they were; nothing is assumed about the shutdown flag. -/
theorem consume_delivers (t : Topic) (consumerId : Int) (msg : Message) (c : Nat)
    (hcur : t.cursor consumerId = some c) (hlt : c < t.messages_.length) :
    ∃ m t1, t.consume consumerId msg = .returned true m t1 ∧
      t.messages_[c]? = some m ∧
      t1.cursor consumerId = some (c + 1) ∧
      t1.messages_ = t.messages_ ∧ t1.isShutdown_ = t.isShutdown_ ∧
      t1.consumers_ = t.consumers_ ∧ t1.name_ = t.name_ := by
  obtain ⟨index, hf, hoff⟩ := cursor_eq_some hcur
  have hidx : index < t.consumerOffsets_.length := by
    rcases List.getElem?_eq_some.mp hoff with ⟨h, _⟩
    exact h
  have hm : t.messages_[c]? = some (t.messages_[c]) := List.getElem?_eq_getElem hlt
  refine ⟨t.messages_[c], { t with consumerOffsets_ := t.consumerOffsets_.set index (c + 1) },
    ?_, hm, ?_, rfl, rfl, rfl, rfl⟩
  · have hnot : ¬ (t.messages_.length ≤ c) := Nat.not_le.mpr hlt
    simp [Topic.consume, Topic.waitPredicate, hf, hoff, hlt, hm, hnot]
  · simp [Topic.cursor, hf, hidx]

/-- Witness for C1 : consumer 7 with cursor 1 on a two-entry log, flag set. -/
theorem consume_delivers_witness :
    ∃ m t1, (Topic.mk "T" [⟨10, "a"⟩, ⟨11, "b"⟩] true [7] [1]).consume 7 ⟨0, ""⟩
        = .returned true m t1 ∧
      (Topic.mk "T" [⟨10, "a"⟩, ⟨11, "b"⟩] true [7] [1]).messages_[1]? = some m ∧
      t1.cursor 7 = some (1 + 1) ∧
      t1.messages_ = (Topic.mk "T" [⟨10, "a"⟩, ⟨11, "b"⟩] true [7] [1]).messages_ ∧
      t1.isShutdown_ = (Topic.mk "T" [⟨10, "a"⟩, ⟨11, "b"⟩] true [7] [1]).isShutdown_ ∧
      t1.consumers_ = (Topic.mk "T" [⟨10, "a"⟩, ⟨11, "b"⟩] true [7] [1]).consumers_ ∧
      t1.name_ = (Topic.mk "T" [⟨10, "a"⟩, ⟨11, "b"⟩] true [7] [1]).name_ :=
  consume_delivers (Topic.mk "T" [⟨10, "a"⟩, ⟨11, "b"⟩] true [7] [1]) 7 ⟨0, ""⟩ 1
    (by decide) (by decide)

/-- C2: with the shutdown flag set and the cursor of a registered consumer id at
or beyond the log length, `consume` returns false, leaves the output parameter
as it was and returns the very same state (log, cursors and flag included). -/
theorem consume_end_of_stream (t : Topic) (consumerId : Int) (msg : Message) (c : Nat)
    (hcur : t.cursor consumerId = some c) (hsd : t.isShutdown_ = true)
    (hge : t.messages_.length ≤ c) :
    t.consume consumerId msg = .returned false msg t := by
  obtain ⟨index, hf, hoff⟩ := cursor_eq_some hcur
  simp [Topic.consume, Topic.waitPredicate, hf, hoff, hsd, hge]

/-- Witness for C2 : consumer 7 has read both entries of a shut-down topic. -/
theorem consume_end_of_stream_witness :
    (Topic.mk "T" [⟨10, "a"⟩, ⟨11, "b"⟩] true [7] [2]).consume 7 ⟨0, ""⟩
      = .returned false ⟨0, ""⟩ (Topic.mk "T" [⟨10, "a"⟩, ⟨11, "b"⟩] true [7] [2]) :=
  consume_end_of_stream (Topic.mk "T" [⟨10, "a"⟩, ⟨11, "b"⟩] true [7] [2]) 7 ⟨0, ""⟩ 2
    (by decide) (by decide) (by decide)

/-- C3: for a registered consumer id (position `index`, cursor `c`) the wait
predicate of `consume` is true exactly when `c < len(log)` or the shutdown flag
is set; while it is false (in particular when the cursor equals the log length
and the flag is unset) the call is waiting and its critical section leaves the
state as it is; and the call returns in a state iff `c < len(log)` or the flag
is set. -/
theorem consume_returns_iff (t : Topic) (consumerId : Int) (msg : Message) (index c : Nat)
    (hf : find t.consumers_ consumerId = some index)
    (hoff : t.consumerOffsets_[index]? = some c) :
    (t.waitPredicate index = some true ↔
      (c < t.messages_.length ∨ t.isShutdown_ = true)) ∧
    (t.waitPredicate index = some false ↔
      ¬ (c < t.messages_.length ∨ t.isShutdown_ = true)) ∧
    (c = t.messages_.length → t.isShutdown_ = false →
      t.consume consumerId msg = .waiting) ∧
    (t.waitPredicate index = some false →
      t.consume consumerId msg = .waiting ∧
      step t (.consume consumerId msg) = some (t, .waiting consumerId)) ∧
    ((∃ ret m t1, t.consume consumerId msg = .returned ret m t1) ↔
      (c < t.messages_.length ∨ t.isShutdown_ = true)) := by
  have hwait : ∀ b, t.waitPredicate index = some b →
      (b = true ↔ (c < t.messages_.length ∨ t.isShutdown_ = true)) := by
    intro b hb
    simp only [Topic.waitPredicate, hoff, Option.some.injEq] at hb
    subst hb
    simp
  have hpred : t.waitPredicate index =
      some (decide (c < t.messages_.length) || t.isShutdown_) := by
    simp [Topic.waitPredicate, hoff]
  have hfalse : t.waitPredicate index = some false → t.consume consumerId msg = .waiting := by
    intro hw
    simp [Topic.consume, hf, hw]
  refine ⟨?_, ?_, ?_, ?_, ?_⟩
  · rw [hpred]; simp
  · rw [hpred]; simp
  · intro hc hs
    apply hfalse
    rw [hpred]; simp [hc, hs]
  · intro hw
    refine ⟨hfalse hw, ?_⟩
    simp [step, hfalse hw]
  · constructor
    · rintro ⟨ret, m, t1, hret⟩
      by_contra hno
      have hw : t.waitPredicate index = some false := by
        rw [hpred]
        simp only [not_or, Bool.not_eq_true] at hno
        simp [hno.1, hno.2]
      rw [hfalse hw] at hret
      cases hret
    · intro hyes
      have hw : t.waitPredicate index = some true := by
        rw [hpred]
        rcases hyes with h | h
        · simp [h]
        · simp [h]
      by_cases hlt : c < t.messages_.length
      · have hm : t.messages_[c]? = some (t.messages_[c]) := List.getElem?_eq_getElem hlt
        have hnot : ¬ (t.messages_.length ≤ c) := Nat.not_le.mpr hlt
        refine ⟨true, t.messages_[c],
          { t with consumerOffsets_ := t.consumerOffsets_.set index (c + 1) }, ?_⟩
        simp [Topic.consume, hf, hw, hoff, hm, hnot]
      · have hsd : t.isShutdown_ = true := by
          rcases hyes with h | h
          · exact absurd h hlt
          · exact h
        refine ⟨false, msg, t, ?_⟩
        simp [Topic.consume, hf, hw, hoff, hsd, Nat.not_lt.mp hlt]

/-- Witness for C3 : consumer 7 has read the whole two-entry log of a topic that
is not shut down. -/
theorem consume_returns_iff_witness :
    ((Topic.mk "T" [⟨10, "a"⟩, ⟨11, "b"⟩] false [7] [2]).waitPredicate 0 = some true ↔
      (2 < (Topic.mk "T" [⟨10, "a"⟩, ⟨11, "b"⟩] false [7] [2]).messages_.length ∨
        (Topic.mk "T" [⟨10, "a"⟩, ⟨11, "b"⟩] false [7] [2]).isShutdown_ = true)) ∧
    ((Topic.mk "T" [⟨10, "a"⟩, ⟨11, "b"⟩] false [7] [2]).waitPredicate 0 = some false ↔
      ¬ (2 < (Topic.mk "T" [⟨10, "a"⟩, ⟨11, "b"⟩] false [7] [2]).messages_.length ∨
        (Topic.mk "T" [⟨10, "a"⟩, ⟨11, "b"⟩] false [7] [2]).isShutdown_ = true)) ∧
    (2 = (Topic.mk "T" [⟨10, "a"⟩, ⟨11, "b"⟩] false [7] [2]).messages_.length →
      (Topic.mk "T" [⟨10, "a"⟩, ⟨11, "b"⟩] false [7] [2]).isShutdown_ = false →
      (Topic.mk "T" [⟨10, "a"⟩, ⟨11, "b"⟩] false [7] [2]).consume 7 ⟨0, ""⟩ = .waiting) ∧
    ((Topic.mk "T" [⟨10, "a"⟩, ⟨11, "b"⟩] false [7] [2]).waitPredicate 0 = some false →
      (Topic.mk "T" [⟨10, "a"⟩, ⟨11, "b"⟩] false [7] [2]).consume 7 ⟨0, ""⟩ = .waiting ∧
      step (Topic.mk "T" [⟨10, "a"⟩, ⟨11, "b"⟩] false [7] [2]) (.consume 7 ⟨0, ""⟩)
        = some (Topic.mk "T" [⟨10, "a"⟩, ⟨11, "b"⟩] false [7] [2], .waiting 7)) ∧
    ((∃ ret m t1, (Topic.mk "T" [⟨10, "a"⟩, ⟨11, "b"⟩] false [7] [2]).consume 7 ⟨0, ""⟩
        = .returned ret m t1) ↔
      (2 < (Topic.mk "T" [⟨10, "a"⟩, ⟨11, "b"⟩] false [7] [2]).messages_.length ∨
        (Topic.mk "T" [⟨10, "a"⟩, ⟨11, "b"⟩] false [7] [2]).isShutdown_ = true)) :=
  consume_returns_iff (Topic.mk "T" [⟨10, "a"⟩, ⟨11, "b"⟩] false [7] [2]) 7 ⟨0, ""⟩ 0 2
    (by decide) (by decide)

/-- C4: with the shutdown flag unset, `publish(m)` makes the log the old log
with `m` appended: the length grows by exactly 1, `m` is the last entry, every
earlier index holds what it held, and the offsets, the consumer list, every
cursor, the name and the shutdown flag are unchanged. -/
theorem publish_appends (t : Topic) (m : Message) (h : t.isShutdown_ = false) :
    (t.publish m).messages_ = t.messages_ ++ [m] ∧
    (t.publish m).messages_.length = t.messages_.length + 1 ∧
    (t.publish m).messages_[t.messages_.length]? = some m ∧
    (∀ i, i < t.messages_.length → (t.publish m).messages_[i]? = t.messages_[i]?) ∧
    (t.publish m).consumerOffsets_ = t.consumerOffsets_ ∧
    (t.publish m).consumers_ = t.consumers_ ∧
    (∀ consumerId, (t.publish m).cursor consumerId = t.cursor consumerId) ∧
    (t.publish m).isShutdown_ = t.isShutdown_ ∧
    (t.publish m).name_ = t.name_ := by
  have hp : t.publish m = { t with messages_ := t.messages_ ++ [m] } := by
    simp [Topic.publish, h]
  rw [hp]
  refine ⟨rfl, by simp, by simp, ?_, rfl, rfl, ?_, rfl, rfl⟩
  · intro i hi
    simp [List.getElem?_append_left hi]
  · intro consumerId
    rfl

/-- Witness for C4 : publishing on a one-entry topic that is not shut down. -/
theorem publish_appends_witness :
    ((Topic.mk "T" [⟨10, "a"⟩] false [7] [1]).publish ⟨11, "b"⟩).messages_
      = (Topic.mk "T" [⟨10, "a"⟩] false [7] [1]).messages_ ++ [⟨11, "b"⟩] :=
  (publish_appends (Topic.mk "T" [⟨10, "a"⟩] false [7] [1]) ⟨11, "b"⟩ (by decide)).1

/-! ## Claims about executions -/

/-- C6: in every execution from a fresh topic (any finite sequence of publish,
registerConsumer, consume and shutdown calls) every call is defined, the
messages a consumer id has received so far are exactly the log entries at
indices 0, 1, 2, ... in that order (its j-th successful consume returned the
entry at index j-1, none skipped and none repeated), and a further consume by
that id that returns true returns the entry whose index is the number of
messages the id has received before. -/
theorem consume_in_index_order (name : String) (ops : List Op) :
    ∃ t rs, run (Topic.init name) ops = some (t, rs) ∧
      ∀ consumerId,
        received consumerId rs = t.messages_.take (received consumerId rs).length ∧
        (∀ (j : Nat) (m : Message), (received consumerId rs)[j]? = some m →
          t.messages_[j]? = some m) ∧
        (∀ buf m t1, t.consume consumerId buf = .returned true m t1 →
          t.messages_[(received consumerId rs).length]? = some m) := by
  obtain ⟨t, rs, hrun, hwf, hrec⟩ := received_eq_take name ops
  refine ⟨t, rs, hrun, fun consumerId => ?_⟩
  have hle := WF_readCount_le hwf consumerId
  have hlen : (received consumerId rs).length = t.readCount consumerId := by
    rw [hrec consumerId, List.length_take]
    exact Nat.min_eq_left hle
  refine ⟨by rw [hlen]; exact hrec consumerId, ?_, ?_⟩
  · intro j m hj
    rw [hrec consumerId] at hj
    have hlt : j < t.readCount consumerId := by
      by_contra hge
      rw [List.getElem?_take_eq_none (Nat.not_lt.mp hge)] at hj
      cases hj
    rwa [List.getElem?_take_of_lt hlt] at hj
  · intro buf m t1 hcons
    rw [hlen]
    rcases consume_cases t consumerId buf with ⟨_, hc⟩ | ⟨index, _, _, hc⟩ |
      ⟨index, c, hf, hoff, hlt, hc⟩ | ⟨index, c, _, _, _, _, hc⟩ | ⟨index, c, _, _, _, _, hc⟩
    · rw [hc] at hcons; cases hcons
    · rw [hc] at hcons; cases hcons
    · have hrc : t.readCount consumerId = c := by
        simp [Topic.readCount, Topic.cursor, hf, hoff]
      have hm : t.messages_[c]? = some (t.messages_[c]) := List.getElem?_eq_getElem hlt
      rw [hc, hm] at hcons
      simp only [Option.getD_some, ConsumeResult.returned.injEq, true_and] at hcons
      rw [hrc, hm, hcons.1]
    · rw [hc] at hcons; cases hcons
    · rw [hc] at hcons; cases hcons

/-- C7: in every execution from a fresh topic, the sequences delivered so far to
any two consumer ids are both initial segments of the one log, hence one of them
is an initial segment of the other. -/
theorem no_subscriber_reordering (name : String) (ops : List Op) :
    ∃ t rs, run (Topic.init name) ops = some (t, rs) ∧
      ∀ a b, received a rs <+: t.messages_ ∧ received b rs <+: t.messages_ ∧
        (received a rs <+: received b rs ∨ received b rs <+: received a rs) := by
  obtain ⟨t, rs, hrun, _, hrec⟩ := received_eq_take name ops
  refine ⟨t, rs, hrun, fun a b => ?_⟩
  have ha : received a rs <+: t.messages_ := by
    rw [hrec a]; exact List.take_prefix _ _
  have hb : received b rs <+: t.messages_ := by
    rw [hrec b]; exact List.take_prefix _ _
  refine ⟨ha, hb, ?_⟩
  rcases Nat.le_total (t.readCount a) (t.readCount b) with h | h
  · left
    rw [hrec a, hrec b]
    exact List.take_prefix_take_left _ h
  · right
    rw [hrec a, hrec b]
    exact List.take_prefix_take_left _ h

/-- C5: a consumer id registered on a fresh topic before any publish (`pre`
holds only registrations and consume calls of other ids); then the messages
are published in order, interleaved in any way with registrations and with
consume calls of other ids (`mid`, no shutdown); then as many successive
`consume` calls by that id as messages were published all return true and
deliver exactly the published messages in publish order. -/
theorem total_order_visibility (name : String) (consumerId : Int) (pre mid : List Op)
    (bufs : List Message)
    (hpre : ∀ op ∈ pre, op.isPublish = false ∧ op.isShutdown = false ∧
      op.isConsumeBy consumerId = false)
    (hmid : ∀ op ∈ mid, op.isShutdown = false ∧ op.isConsumeBy consumerId = false)
    (hn : bufs.length = (published mid).length) :
    ∃ t rs t1,
      run (Topic.init name) (pre ++ Op.registerConsumer consumerId :: mid) = some (t, rs) ∧
      t.messages_ = published mid ∧
      run t (bufs.map (Op.consume consumerId))
        = some (t1, (published mid).map (Ret.consumed consumerId true)) := by
  obtain ⟨t0, rs0, hrun0, hwf0, _, _, _⟩ := run_inv (init_WF name) pre
  have hopen := run_open (fun o ho => (hpre o ho).2.1)
    (show (Topic.init name).isShutdown_ = false from rfl) hrun0
  have hlog0 : t0.messages_ = [] := by
    rw [hopen.2, published_eq_nil (fun o ho => (hpre o ho).1)]
    rfl
  have hc0 : (t0.registerConsumer consumerId).cursor consumerId = some 0 := by
    cases hf : find t0.consumers_ consumerId with
    | none =>
      rw [cursor_registerConsumer_of_none hwf0.1 hf]
      simp
    | some index =>
      obtain ⟨c, hoff⟩ := WF_cursor_of_find hwf0 hf
      have hc : t0.cursor consumerId = some c := by simp [Topic.cursor, hf, hoff]
      have hle := WF_le hwf0 hc
      rw [hlog0] at hle
      have hz : c = 0 := by simpa using hle
      subst hz
      exact cursor_registerConsumer_of_some hc consumerId
  obtain ⟨t, rs, t1, hrun, hlog, hdrain⟩ :=
    register_then_read hwf0 hopen.1 hc0 hmid bufs (by rw [hlog0]; simpa using hn)
  have hlog2 : t.messages_ = published mid := by rw [hlog, hlog0]; rfl
  exact ⟨t, rs0 ++ rs, t1, run_append_of hrun0 hrun, hlog2, by rw [hdrain, hlog2]⟩

/-- Witness for C5 : consumer 1 registers after consumer 2, two messages are
published around a consume of consumer 2, then consumer 1 consumes twice. -/
theorem total_order_visibility_witness :
    ∃ t rs t1,
      run (Topic.init "T")
        ([Op.registerConsumer 2] ++ Op.registerConsumer 1 ::
          [Op.publish ⟨1000, "a"⟩, Op.consume 2 ⟨0, ""⟩, Op.publish ⟨2000, "b"⟩]) = some (t, rs) ∧
      t.messages_ = published
        [Op.publish ⟨1000, "a"⟩, Op.consume 2 ⟨0, ""⟩, Op.publish ⟨2000, "b"⟩] ∧
      run t (([⟨0, ""⟩, ⟨0, ""⟩] : List Message).map (Op.consume 1))
        = some (t1, (published
            [Op.publish ⟨1000, "a"⟩, Op.consume 2 ⟨0, ""⟩, Op.publish ⟨2000, "b"⟩]).map
              (Ret.consumed 1 true)) :=
  total_order_visibility "T" 1 [Op.registerConsumer 2]
    [Op.publish ⟨1000, "a"⟩, Op.consume 2 ⟨0, ""⟩, Op.publish ⟨2000, "b"⟩]
    [⟨0, ""⟩, ⟨0, ""⟩] (by decide) (by decide) (by decide)

/-- C8: a consumer id first registered after `k` messages have been published
(`pre` holds no registration of the id and no shutdown) starts with cursor 0;
whatever is published and done by others afterwards (`mid`, no shutdown, no
consume by the id), once `n >= k` messages are in the log its first `n` consume
calls all return true and return messages 1..n in publish order, the `k`
published before its registration included. -/
theorem registration_timing (name : String) (consumerId : Int) (k n : Nat)
    (pre mid : List Op) (bufs : List Message)
    (hpre : ∀ op ∈ pre, op.isShutdown = false ∧ op.isRegisterOf consumerId = false)
    (hmid : ∀ op ∈ mid, op.isShutdown = false ∧ op.isConsumeBy consumerId = false)
    (hk : (published pre).length = k)
    (hn : (published pre ++ published mid).length = n)
    (hb : bufs.length = n) :
    k ≤ n ∧
    ∃ t0 rs0 t rs t1,
      run (Topic.init name) pre = some (t0, rs0) ∧
      t0.messages_ = published pre ∧ t0.cursor consumerId = none ∧
      (t0.registerConsumer consumerId).cursor consumerId = some 0 ∧
      run (Topic.init name) (pre ++ Op.registerConsumer consumerId :: mid) = some (t, rs) ∧
      t.messages_ = published pre ++ published mid ∧
      run t (bufs.map (Op.consume consumerId))
        = some (t1, (published pre ++ published mid).map (Ret.consumed consumerId true)) := by
  refine ⟨by rw [← hk, ← hn, List.length_append]; omega, ?_⟩
  obtain ⟨t0, rs0, hrun0, hwf0, _, _, _⟩ := run_inv (init_WF name) pre
  have hopen := run_open (fun o ho => (hpre o ho).1)
    (show (Topic.init name).isShutdown_ = false from rfl) hrun0
  have hlog0 : t0.messages_ = published pre := by
    rw [hopen.2]; rfl
  have hf0 : find t0.consumers_ consumerId = none :=
    run_unregistered (fun o ho => (hpre o ho).2)
      (show find (Topic.init name).consumers_ consumerId = none from rfl) hrun0
  have hcn : t0.cursor consumerId = none := by simp [Topic.cursor, hf0]
  have hc0 : (t0.registerConsumer consumerId).cursor consumerId = some 0 := by
    rw [cursor_registerConsumer_of_none hwf0.1 hf0]
    simp
  obtain ⟨t, rs, t1, hrun, hlog, hdrain⟩ :=
    register_then_read hwf0 hopen.1 hc0 hmid bufs
      (by rw [hlog0, hb, ← hn, List.length_append])
  have hlog2 : t.messages_ = published pre ++ published mid := by rw [hlog, hlog0]
  exact ⟨t0, rs0, t, rs0 ++ rs, t1, hrun0, hlog0, hcn, hc0, run_append_of hrun0 hrun, hlog2,
    by rw [hdrain, hlog2]⟩

/-- Witness for C8 : consumer 5 registers after one of three messages has been
published (k = 1, n = 3) and then consumes three times. -/
theorem registration_timing_witness :
    1 ≤ 3 ∧
    ∃ t0 rs0 t rs t1,
      run (Topic.init "T") [Op.registerConsumer 2, Op.publish ⟨1000, "a"⟩] = some (t0, rs0) ∧
      t0.messages_ = published [Op.registerConsumer 2, Op.publish ⟨1000, "a"⟩] ∧
      t0.cursor 5 = none ∧
      (t0.registerConsumer 5).cursor 5 = some 0 ∧
      run (Topic.init "T")
        ([Op.registerConsumer 2, Op.publish ⟨1000, "a"⟩] ++ Op.registerConsumer 5 ::
          [Op.publish ⟨1001, "b"⟩, Op.consume 2 ⟨0, ""⟩, Op.publish ⟨1002, "c"⟩])
        = some (t, rs) ∧
      t.messages_ = published [Op.registerConsumer 2, Op.publish ⟨1000, "a"⟩] ++
        published [Op.publish ⟨1001, "b"⟩, Op.consume 2 ⟨0, ""⟩, Op.publish ⟨1002, "c"⟩] ∧
      run t (([⟨0, ""⟩, ⟨0, ""⟩, ⟨0, ""⟩] : List Message).map (Op.consume 5))
        = some (t1, (published [Op.registerConsumer 2, Op.publish ⟨1000, "a"⟩] ++
            published [Op.publish ⟨1001, "b"⟩, Op.consume 2 ⟨0, ""⟩,
              Op.publish ⟨1002, "c"⟩]).map (Ret.consumed 5 true)) :=
  registration_timing "T" 5 1 3 [Op.registerConsumer 2, Op.publish ⟨1000, "a"⟩]
    [Op.publish ⟨1001, "b"⟩, Op.consume 2 ⟨0, ""⟩, Op.publish ⟨1002, "c"⟩]
    [⟨0, ""⟩, ⟨0, ""⟩, ⟨0, ""⟩] (by decide) (by decide) (by decide) (by decide) (by decide)

/-- C9: for a registered consumer id with cursor `c`, `shutdown()` leaves the
log and the cursor as they are, and afterwards the next
`b = len(log) - c` consume calls of that id each return true and deliver
`log[c], ..., log[len-1]` in order, while the (b+1)-th and every later one
returns false.  This holds for consume calls made in a row and, when the state
satisfies the class invariant, also for consume calls interleaved with any
calls of anybody else. -/
theorem shutdown_drains_backlog (t : Topic) (consumerId : Int) (c : Nat)
    (hcur : t.cursor consumerId = some c) :
    t.shutdown.messages_ = t.messages_ ∧ t.shutdown.cursor consumerId = some c ∧
    (∀ bufs1 bufs2 : List Message, bufs1.length = t.messages_.length - c →
      ∃ t1, run t.shutdown ((bufs1 ++ bufs2).map (Op.consume consumerId))
          = some (t1, (t.messages_.drop c).map (Ret.consumed consumerId true) ++
              bufs2.map (Ret.consumed consumerId false)) ∧
        t1.messages_ = t.messages_) ∧
    (t.WF → ∀ ops : List Op, ∃ t1 rs, run t.shutdown ops = some (t1, rs) ∧
      t1.messages_ = t.messages_ ∧
      resultsOf consumerId rs =
        ((t.messages_.drop c).take (callsOf consumerId ops).length).map
            (Ret.consumed consumerId true) ++
          ((callsOf consumerId ops).drop (t.messages_.length - c)).map
            (Ret.consumed consumerId false)) := by
  have hcs : t.shutdown.cursor consumerId = some c := hcur
  refine ⟨rfl, hcs, ?_, ?_⟩
  · intro bufs1 bufs2 hlen
    rw [List.map_append]
    by_cases hle : c ≤ t.messages_.length
    · have hb : c + bufs1.length ≤ t.shutdown.messages_.length := by
        show c + bufs1.length ≤ t.messages_.length
        omega
      obtain ⟨t1, hrun1, hcur1, hlog1, hsd1⟩ := run_drain bufs1 hcs hb
      have hge : t1.messages_.length ≤ c + bufs1.length := by
        rw [hlog1]
        show t.messages_.length ≤ c + bufs1.length
        omega
      have hrun2 := run_drained bufs2 hcur1 hge (by rw [hsd1]; rfl)
      refine ⟨t1, ?_, hlog1⟩
      have htake : (t.messages_.drop c).take bufs1.length = t.messages_.drop c := by
        apply List.take_of_length_le
        rw [List.length_drop]
        omega
      have := run_append_of hrun1 hrun2
      rw [show t.shutdown.messages_ = t.messages_ from rfl, htake] at this
      exact this
    · have hge : t.shutdown.messages_.length ≤ c := by
        show t.messages_.length ≤ c
        omega
      have hnil : bufs1 = [] := by
        apply List.eq_nil_of_length_eq_zero
        omega
      have hd : t.messages_.drop c = [] := List.drop_eq_nil_of_le (by omega)
      subst hnil
      refine ⟨t.shutdown, ?_, rfl⟩
      rw [hd]
      simpa using run_drained bufs2 hcs hge rfl
  · intro hwf ops
    exact run_after_shutdown ops (shutdown_WF hwf) rfl consumerId hcs

/-- Witness for C9 : consumer 7 has read one of three entries when the topic is
shut down. -/
theorem shutdown_drains_backlog_witness :
    ∃ t1, run (Topic.mk "T" [⟨10, "a"⟩, ⟨11, "b"⟩, ⟨12, "c"⟩] false [7] [1]).shutdown
        ((([⟨0, ""⟩, ⟨0, ""⟩] : List Message) ++ ([⟨0, ""⟩, ⟨0, ""⟩] : List Message)).map
          (Op.consume 7))
      = some (t1,
          ((Topic.mk "T" [⟨10, "a"⟩, ⟨11, "b"⟩, ⟨12, "c"⟩] false [7] [1]).messages_.drop 1).map
              (Ret.consumed 7 true) ++
            ([⟨0, ""⟩, ⟨0, ""⟩] : List Message).map (Ret.consumed 7 false)) ∧
      t1.messages_ = (Topic.mk "T" [⟨10, "a"⟩, ⟨11, "b"⟩, ⟨12, "c"⟩] false [7] [1]).messages_ :=
  (shutdown_drains_backlog (Topic.mk "T" [⟨10, "a"⟩, ⟨11, "b"⟩, ⟨12, "c"⟩] false [7] [1]) 7 1
    (by decide)).2.2.1 ([⟨0, ""⟩, ⟨0, ""⟩] : List Message) ([⟨0, ""⟩, ⟨0, ""⟩] : List Message)
    (by decide)

/-- C10: in every state reached from a fresh topic by an execution in which
`shutdown()` has been called, the flag is set and the wait predicate of
`consume` is true at the position of every registered consumer id, so no
`consume` call waits (or indexes out of range): it returns the log entry at the
cursor when the cursor is behind the log and false (end-of-stream) otherwise. -/
theorem no_blocking_after_shutdown (name : String) (ops1 ops2 : List Op) :
    ∃ t rs, run (Topic.init name) (ops1 ++ Op.shutdown :: ops2) = some (t, rs) ∧
      t.isShutdown_ = true ∧
      (∀ consumerId index, find t.consumers_ consumerId = some index →
        t.waitPredicate index = some true) ∧
      (∀ consumerId buf, t.consume consumerId buf ≠ .waiting ∧
        t.consume consumerId buf ≠ .undefined ∧
        step t (.consume consumerId buf) ≠ some (t, .waiting consumerId)) ∧
      (∀ consumerId c buf, t.cursor consumerId = some c →
        (c < t.messages_.length →
          ∃ m t1, t.consume consumerId buf = .returned true m t1 ∧
            t.messages_[c]? = some m) ∧
        (t.messages_.length ≤ c → t.consume consumerId buf = .returned false buf t)) := by
  obtain ⟨ta, rsa, hruna, hwfa, _, _, _⟩ := run_inv (init_WF name) ops1
  obtain ⟨t, rsb, hrunb, hwf, hsdb, _, _⟩ := run_inv (shutdown_WF hwfa) ops2
  have hsd : t.isShutdown_ = true := hsdb rfl
  have hrun : run (Topic.init name) (ops1 ++ Op.shutdown :: ops2)
      = some (t, rsa ++ Ret.done :: rsb) :=
    run_append_of hruna (run_cons_of rfl hrunb)
  have hall : ∀ consumerId c buf, t.cursor consumerId = some c →
      (c < t.messages_.length →
        ∃ m t1, t.consume consumerId buf = .returned true m t1 ∧
          t.messages_[c]? = some m) ∧
      (t.messages_.length ≤ c → t.consume consumerId buf = .returned false buf t) := by
    intro consumerId c buf hcur
    constructor
    · intro hlt
      obtain ⟨m, t1, hc, hm, _⟩ := consume_of_lt hcur hlt buf
      exact ⟨m, t1, hc, hm⟩
    · intro hge
      exact consume_of_ge hcur hge hsd buf
  have hret : ∀ consumerId buf, ∃ ret m t1,
      t.consume consumerId buf = .returned ret m t1 := by
    intro consumerId buf
    cases hf : find t.consumers_ consumerId with
    | none => exact ⟨false, buf, t, by simp [Topic.consume, hf]⟩
    | some index =>
      obtain ⟨c, hoff⟩ := WF_cursor_of_find hwf hf
      have hcur : t.cursor consumerId = some c := by simp [Topic.cursor, hf, hoff]
      by_cases hlt : c < t.messages_.length
      · obtain ⟨m, t1, hc, _⟩ := (hall consumerId c buf hcur).1 hlt
        exact ⟨true, m, t1, hc⟩
      · exact ⟨false, buf, t, (hall consumerId c buf hcur).2 (Nat.not_lt.mp hlt)⟩
  refine ⟨t, rsa ++ Ret.done :: rsb, hrun, hsd, ?_, ?_, hall⟩
  · intro consumerId index hf
    obtain ⟨c, hoff⟩ := WF_cursor_of_find hwf hf
    simp [Topic.waitPredicate, hoff, hsd]
  · intro consumerId buf
    obtain ⟨ret, m, t1, hc⟩ := hret consumerId buf
    refine ⟨?_, ?_, ?_⟩
    · rw [hc]
      intro h
      cases h
    · rw [hc]
      intro h
      cases h
    · simp only [step, hc]
      intro h
      cases h

/-! ## Further facts: unknown ids, the log and the flag -/

theorem find_eq_none_iff (cs : List Int) (consumerId : Int) :
    find cs consumerId = none ↔ consumerId ∉ cs := by
  induction cs with
  | nil => simp [find]
  | cons c cs ih =>
    by_cases hc : c = consumerId
    · simp [find, hc]
    · have hc2 : ¬ consumerId = c := fun h => hc h.symm
      cases hf : find cs consumerId with
      | none =>
        have hn := ih.mp hf
        simp [find, hc, hc2, hf, hn]
      | some index =>
        have hn : ¬ consumerId ∉ cs := fun h => by
          rw [ih.mpr h] at hf
          cases hf
        simp only [find, hc, if_false, hf, List.mem_cons, hc2, false_or]
        constructor
        · intro h; cases h
        · intro h; exact absurd h hn

theorem consume_unknown {t : Topic} {consumerId : Int}
    (h : find t.consumers_ consumerId = none) (msg : Message) :
    t.consume consumerId msg = .returned false msg t := by
  simp [Topic.consume, h]

/-- Every message handed out on a shut-down topic was in the log at the time
the flag was already set. -/
theorem run_closed_received {t : Topic} {ops : List Op} (hsd : t.isShutdown_ = true)
    {t1 : Topic} {rs : List Ret} (hrun : run t ops = some (t1, rs)) (consumerId : Int) :
    ∀ x ∈ received consumerId rs, x ∈ t.messages_ := by
  induction ops generalizing t rs with
  | nil =>
    simp only [run, Option.some.injEq, Prod.mk.injEq] at hrun
    rw [← hrun.2]
    simp [received]
  | cons op ops ih =>
    obtain ⟨t0, r, rs1, hstep, hrest, hrs⟩ := run_cons_some hrun
    obtain ⟨hsd0, hlog0⟩ := step_closed hsd hstep
    have hrest1 := ih hsd0 hrest
    rw [hlog0] at hrest1
    intro x hx
    rw [hrs, received_cons, List.mem_append] at hx
    rcases hx with hx | hx
    · rcases step_shape hstep with ⟨m, _, _, hr⟩ | ⟨j, _, _, hr⟩ | ⟨_, _, hr⟩ |
        ⟨j, msg, _, _, hr⟩ | ⟨j, msg, index, c1, _, _, _, _, _, m, hm, hr⟩
      · rw [hr] at hx; simp [received] at hx
      · rw [hr] at hx; simp [received] at hx
      · rw [hr] at hx; simp [received] at hx
      · rcases hr with hr | hr <;> rw [hr] at hx <;> simp [received] at hx
      · rw [hr] at hx
        by_cases hj : j = consumerId
        · simp only [received, hj, if_true, List.mem_singleton] at hx
          rw [hx]
          exact List.getElem?_mem hm
        · simp [received, hj] at hx
    · exact hrest1 x hx

/-! ## Claims about shutdown, late publishes and unknown ids -/

/-- C11: `shutdown()` is idempotent, `shutdown(shutdown(s)) = shutdown(s)`; the
state after `shutdown()` is the old state with the flag true: name, log,
consumer list, offsets and therefore every cursor are unchanged. -/
theorem shutdown_idempotent (t : Topic) :
    t.shutdown.shutdown = t.shutdown ∧
    t.shutdown = { t with isShutdown_ := true } ∧
    t.shutdown.isShutdown_ = true ∧
    t.shutdown.messages_ = t.messages_ ∧
    t.shutdown.consumers_ = t.consumers_ ∧
    t.shutdown.consumerOffsets_ = t.consumerOffsets_ ∧
    t.shutdown.name_ = t.name_ ∧
    (∀ consumerId, t.shutdown.cursor consumerId = t.cursor consumerId) ∧
    (t.isShutdown_ = true → t.shutdown = t) := by
  refine ⟨rfl, rfl, rfl, rfl, rfl, rfl, rfl, fun _ => rfl, ?_⟩
  intro h
  cases t
  simp only [Topic.shutdown] at *
  simp [h]

/-- C12: on a topic whose flag is set, `publish(m)` returns with the state
exactly as it was (log, offsets, consumer list, flag), so the rest of any
execution is the same as if the call had not been made, the log never changes
again, and a message that was not in the log is never handed to a consumer. -/
theorem publish_after_shutdown_dropped (t : Topic) (m : Message)
    (hsd : t.isShutdown_ = true) :
    t.publish m = t ∧
    step t (.publish m) = some (t, .done) ∧
    (∀ ops, run t (Op.publish m :: ops) =
      match run t ops with
      | none => none
      | some (t1, rs) => some (t1, Ret.done :: rs)) ∧
    (∀ ops t1 rs, run t (Op.publish m :: ops) = some (t1, rs) →
      t1.messages_ = t.messages_ ∧
      (m ∉ t.messages_ → ∀ consumerId, m ∉ received consumerId rs)) := by
  have hp : t.publish m = t := by simp [Topic.publish, hsd]
  have hs : step t (.publish m) = some (t, .done) := by simp [step, hp]
  refine ⟨hp, hs, ?_, ?_⟩
  · intro ops
    simp only [run, hs]
  · intro ops t1 rs hrun
    refine ⟨(run_closed hsd hrun).2, ?_⟩
    intro hm consumerId hin
    exact hm (run_closed_received hsd hrun consumerId m hin)

/-- Witness for C12 : a publish on a shut-down topic with one entry. -/
theorem publish_after_shutdown_dropped_witness :
    (Topic.mk "T" [⟨10, "a"⟩] true [7] [0]).publish ⟨11, "b"⟩
      = Topic.mk "T" [⟨10, "a"⟩] true [7] [0] :=
  (publish_after_shutdown_dropped (Topic.mk "T" [⟨10, "a"⟩] true [7] [0]) ⟨11, "b"⟩
    (by decide)).1

/-- C13: for a consumer id that is not in the consumer list (never passed to
`registerConsumer`), `consume` returns false at once: the outcome is a return,
not a wait, whatever the log and the flag are, the output parameter is
untouched and the state (log, every cursor, flag) is the same.  In every
execution from a fresh topic without a `registerConsumer` call for the id, the
id is not in the list. -/
theorem consume_unknown_returns_false (t : Topic) (consumerId : Int) (msg : Message)
    (hun : consumerId ∉ t.consumers_) :
    t.consume consumerId msg = .returned false msg t ∧
    t.consume consumerId msg ≠ .waiting ∧
    step t (.consume consumerId msg) = some (t, .consumed consumerId false msg) ∧
    (∀ name ops, (∀ op ∈ ops, op.isRegisterOf consumerId = false) →
      ∃ t1 rs, run (Topic.init name) ops = some (t1, rs) ∧ consumerId ∉ t1.consumers_ ∧
        t1.consume consumerId msg = .returned false msg t1) := by
  have hf := (find_eq_none_iff t.consumers_ consumerId).mpr hun
  have hc := consume_unknown hf msg
  refine ⟨hc, ?_, by simp [step, hc], ?_⟩
  · rw [hc]
    intro h
    cases h
  · intro name ops hops
    obtain ⟨t1, rs, hrun, _⟩ := run_inv (init_WF name) ops
    have hf1 : find t1.consumers_ consumerId = none :=
      run_unregistered hops (show find (Topic.init name).consumers_ consumerId = none from rfl)
        hrun
    exact ⟨t1, rs, hrun, (find_eq_none_iff _ _).mp hf1, consume_unknown hf1 msg⟩

/-- Witness for C13 : consumer 9 is unknown to a topic that knows consumer 7. -/
theorem consume_unknown_returns_false_witness :
    (Topic.mk "T" [⟨10, "a"⟩] false [7] [0]).consume 9 ⟨5, "x"⟩
      = .returned false ⟨5, "x"⟩ (Topic.mk "T" [⟨10, "a"⟩] false [7] [0]) :=
  (consume_unknown_returns_false (Topic.mk "T" [⟨10, "a"⟩] false [7] [0]) 9 ⟨5, "x"⟩
    (by decide)).1

/-- C14: in any state, `consume` with an id that is not registered and
`consume` with a registered id that has read the whole log of a shut-down topic
give the same result: both return false, both leave the output parameter as
the caller passed it and both leave the state as it is. -/
theorem unknown_indistinguishable_from_end_of_stream (t : Topic) (unknownId drainedId : Int)
    (msg : Message) (c : Nat)
    (hun : unknownId ∉ t.consumers_)
    (hcur : t.cursor drainedId = some c) (hge : t.messages_.length ≤ c)
    (hsd : t.isShutdown_ = true) :
    t.consume unknownId msg = .returned false msg t ∧
    t.consume drainedId msg = .returned false msg t ∧
    t.consume unknownId msg = t.consume drainedId msg := by
  have h1 := consume_unknown ((find_eq_none_iff t.consumers_ unknownId).mpr hun) msg
  have h2 := consume_of_ge hcur hge hsd msg
  exact ⟨h1, h2, by rw [h1, h2]⟩

/-- Witness for C14 : consumer 9 is unknown and consumer 7 has read the one
entry of a shut-down topic. -/
theorem unknown_indistinguishable_from_end_of_stream_witness :
    (Topic.mk "T" [⟨10, "a"⟩] true [7] [1]).consume 9 ⟨5, "x"⟩
      = (Topic.mk "T" [⟨10, "a"⟩] true [7] [1]).consume 7 ⟨5, "x"⟩ :=
  (unknown_indistinguishable_from_end_of_stream (Topic.mk "T" [⟨10, "a"⟩] true [7] [1]) 9 7
    ⟨5, "x"⟩ 1 (by decide) (by decide) (by decide) (by decide)).2.2

/-! ## Further facts: registration and single steps -/

theorem cursor_registerConsumer_other {t : Topic}
    (hlen : t.consumers_.length = t.consumerOffsets_.length) {j other : Int}
    (hne : other ≠ j) :
    (t.registerConsumer j).cursor other = t.cursor other := by
  cases hf : find t.consumers_ other with
  | none =>
    have h0 : t.cursor other = none := by simp [Topic.cursor, hf]
    have hj : ¬ j = other := fun h => hne h.symm
    rw [cursor_registerConsumer_of_none hlen hf, h0]
    simp [hj]
  | some index =>
    have hlt : index < t.consumerOffsets_.length := hlen ▸ (find_some_lt hf).1
    have hc : t.cursor other = some (t.consumerOffsets_[index]) := by
      simp [Topic.cursor, hf, List.getElem?_eq_getElem hlt]
    rw [cursor_registerConsumer_of_some hc, hc]

theorem consume_of_ge_open {t : Topic} {consumerId : Int} {c : Nat}
    (hcur : t.cursor consumerId = some c) (hge : t.messages_.length ≤ c)
    (hsd : t.isShutdown_ = false) (msg : Message) :
    t.consume consumerId msg = .waiting := by
  obtain ⟨index, hf, hoff⟩ := cursor_eq_some hcur
  have hnlt : ¬ c < t.messages_.length := Nat.not_lt.mpr hge
  simp [Topic.consume, Topic.waitPredicate, hf, hoff, hsd, hnlt]

/-- No call removes or rewrites a log entry. -/
theorem step_log_grows {t : Topic} {op : Op} {t1 : Topic} {r : Ret}
    (hstep : step t op = some (t1, r)) :
    ∃ tail, t1.messages_ = t.messages_ ++ tail := by
  rcases step_shape hstep with ⟨m, _, h1, _⟩ | ⟨j, _, h1, _⟩ | ⟨_, h1, _⟩ |
    ⟨j, msg, _, h1, _⟩ | ⟨j, msg, index, c1, _, _, _, _, h1, _⟩
  · rw [h1]
    unfold Topic.publish
    split
    · exact ⟨[], by simp⟩
    · exact ⟨[m], rfl⟩
  · rw [h1]; exact ⟨[], by simp [Topic.registerConsumer]⟩
  · rw [h1]; exact ⟨[], by simp [Topic.shutdown]⟩
  · rw [h1]; exact ⟨[], by simp⟩
  · rw [h1]; exact ⟨[], by simp⟩

theorem run_log_grows {t : Topic} {ops : List Op} {t1 : Topic} {rs : List Ret}
    (hrun : run t ops = some (t1, rs)) :
    ∃ tail, t1.messages_ = t.messages_ ++ tail := by
  induction ops generalizing t rs with
  | nil =>
    simp only [run, Option.some.injEq, Prod.mk.injEq] at hrun
    rw [← hrun.1]
    exact ⟨[], by simp⟩
  | cons op ops ih =>
    obtain ⟨t0, r, rs1, hstep, hrest, _⟩ := run_cons_some hrun
    obtain ⟨tail0, h0⟩ := step_log_grows hstep
    obtain ⟨tail1, h1⟩ := ih hrest
    exact ⟨tail0 ++ tail1, by rw [h1, h0, List.append_assoc]⟩

/-- Only `shutdown()` raises the flag. -/
theorem step_flag_raised {t : Topic} {op : Op} {t1 : Topic} {r : Ret}
    (hsd : t.isShutdown_ = false) (hstep : step t op = some (t1, r))
    (hsd1 : t1.isShutdown_ = true) : op = .shutdown := by
  cases hop : op.isShutdown with
  | true =>
    cases op with
    | shutdown => rfl
    | publish m => simp [Op.isShutdown] at hop
    | registerConsumer j => simp [Op.isShutdown] at hop
    | consume j msg => simp [Op.isShutdown] at hop
  | false =>
    have h := (step_open hop hsd hstep).1
    rw [h] at hsd1
    cases hsd1

/-! ## Claims about registration and the state invariants -/

/-- C15: in a state whose consumer list and offset list are parallel, shut down
or not, `registerConsumer(id)` for an id not yet in the list makes the id
registered at the new last position with cursor 0, leaves the cursor of every
other id, the log and the flag unchanged; a following `consume(id)` does not
take the unknown-id branch and is defined: it returns the first log entry when
there is one, false when the log is empty and the flag is set, and waits when
the log is empty and the flag is unset. -/
theorem registerConsumer_new (t : Topic) (consumerId : Int)
    (hlen : t.consumers_.length = t.consumerOffsets_.length)
    (hnew : consumerId ∉ t.consumers_) :
    (t.registerConsumer consumerId).cursor consumerId = some 0 ∧
    find (t.registerConsumer consumerId).consumers_ consumerId = some t.consumers_.length ∧
    consumerId ∈ (t.registerConsumer consumerId).consumers_ ∧
    (∀ other, other ≠ consumerId →
      (t.registerConsumer consumerId).cursor other = t.cursor other) ∧
    (t.registerConsumer consumerId).messages_ = t.messages_ ∧
    (t.registerConsumer consumerId).isShutdown_ = t.isShutdown_ ∧
    (∀ msg, (t.registerConsumer consumerId).consume consumerId msg ≠ .undefined ∧
      (∀ first, t.messages_[0]? = some first →
        ∃ t1, (t.registerConsumer consumerId).consume consumerId msg
            = .returned true first t1 ∧ t1.cursor consumerId = some 1) ∧
      (t.messages_ = [] → t.isShutdown_ = true →
        (t.registerConsumer consumerId).consume consumerId msg
          = .returned false msg (t.registerConsumer consumerId)) ∧
      (t.messages_ = [] → t.isShutdown_ = false →
        (t.registerConsumer consumerId).consume consumerId msg = .waiting)) := by
  have hf := (find_eq_none_iff t.consumers_ consumerId).mpr hnew
  have hc0 : (t.registerConsumer consumerId).cursor consumerId = some 0 := by
    rw [cursor_registerConsumer_of_none hlen hf]
    simp
  have hfind : find (t.registerConsumer consumerId).consumers_ consumerId
      = some t.consumers_.length := by
    simp [Topic.registerConsumer, find_push_back, hf]
  have hfirst : ∀ msg first, t.messages_[0]? = some first →
      ∃ t1, (t.registerConsumer consumerId).consume consumerId msg
          = .returned true first t1 ∧ t1.cursor consumerId = some 1 := by
    intro msg first h0
    have hlt : 0 < (t.registerConsumer consumerId).messages_.length :=
      (List.getElem?_eq_some.mp h0).1
    obtain ⟨m, t1, hcons, hm, hcur1, _⟩ := consume_of_lt hc0 hlt msg
    have hmf : m = first := by
      have : (t.registerConsumer consumerId).messages_[0]? = some first := h0
      rw [this] at hm
      exact (Option.some.inj hm).symm
    subst hmf
    exact ⟨t1, hcons, hcur1⟩
  refine ⟨hc0, hfind, ?_, fun other hne => cursor_registerConsumer_other hlen hne, rfl, rfl, ?_⟩
  · simp [Topic.registerConsumer]
  · intro msg
    refine ⟨?_, hfirst msg, ?_, ?_⟩
    · cases hm : t.messages_ with
      | cons first rest =>
        obtain ⟨t1, hcons, _⟩ := hfirst msg first (by simp [hm])
        rw [hcons]
        intro h
        cases h
      | nil =>
        have hge : (t.registerConsumer consumerId).messages_.length ≤ 0 := by
          show t.messages_.length ≤ 0
          simp [hm]
        cases hsd : t.isShutdown_ with
        | true =>
          rw [consume_of_ge hc0 hge hsd msg]
          intro h
          cases h
        | false =>
          rw [consume_of_ge_open hc0 hge hsd msg]
          intro h
          cases h
    · intro hm hsd
      exact consume_of_ge hc0 (by show t.messages_.length ≤ 0; simp [hm]) hsd msg
    · intro hm hsd
      exact consume_of_ge_open hc0 (by show t.messages_.length ≤ 0; simp [hm]) hsd msg

/-- Witness for C15 : consumer 9 registers on a shut-down topic that already has
consumer 7 and one log entry. -/
theorem registerConsumer_new_witness :
    ((Topic.mk "T" [⟨10, "a"⟩] true [7] [1]).registerConsumer 9).cursor 9 = some 0 :=
  (registerConsumer_new (Topic.mk "T" [⟨10, "a"⟩] true [7] [1]) 9 (by decide) (by decide)).1

/-- Counterexample for C16 as stated: consumer 7 registers, one message is
published and consumed by it, and consumer 7 registers again.  The second
`registerConsumer(7)` finds 7 in the list and still changes both the id list
(`[7]` to `[7, 7]`) and the offset list (`[1]` to `[1, 0]`). -/
theorem registerConsumer_registered_counterexample :
    run (Topic.init "T")
        [Op.registerConsumer 7, Op.publish ⟨10, "a"⟩, Op.consume 7 ⟨0, ""⟩]
      = some (Topic.mk "T" [⟨10, "a"⟩] false [7] [1],
          [Ret.done, Ret.done, Ret.consumed 7 true ⟨10, "a"⟩]) ∧
    (7 : Int) ∈ (Topic.mk "T" [⟨10, "a"⟩] false [7] [1]).consumers_ ∧
    ((Topic.mk "T" [⟨10, "a"⟩] false [7] [1]).registerConsumer 7).consumers_ = [7, 7] ∧
    ((Topic.mk "T" [⟨10, "a"⟩] false [7] [1]).registerConsumer 7).consumerOffsets_ = [1, 0] ∧
    ¬ (((Topic.mk "T" [⟨10, "a"⟩] false [7] [1]).registerConsumer 7).consumers_
          = (Topic.mk "T" [⟨10, "a"⟩] false [7] [1]).consumers_ ∧
        ((Topic.mk "T" [⟨10, "a"⟩] false [7] [1]).registerConsumer 7).consumerOffsets_
          = (Topic.mk "T" [⟨10, "a"⟩] false [7] [1]).consumerOffsets_) := by
  refine ⟨rfl, by decide, rfl, rfl, ?_⟩
  intro h
  have h2 := h.2
  simp [Topic.registerConsumer] at h2

/-- C16 (amended): `registerConsumer(id)` inserts a cursor entry whether or not
the id is present: in a state in which the id is already registered it appends
the id to the consumer list and offset 0 to the offset list, leaving the
entries that were there in place; the id then occurs once more than before (at
least twice), both lists are one longer, and the position `consume` finds for
the id is the same as before. -/
theorem registerConsumer_registered_appends (t : Topic) (consumerId : Int)
    (hreg : consumerId ∈ t.consumers_) :
    (t.registerConsumer consumerId).consumers_ = t.consumers_ ++ [consumerId] ∧
    (t.registerConsumer consumerId).consumerOffsets_ = t.consumerOffsets_ ++ [0] ∧
    (t.registerConsumer consumerId).consumers_.length = t.consumers_.length + 1 ∧
    (t.registerConsumer consumerId).consumerOffsets_.length
      = t.consumerOffsets_.length + 1 ∧
    (t.registerConsumer consumerId).consumers_.count consumerId
      = t.consumers_.count consumerId + 1 ∧
    2 ≤ (t.registerConsumer consumerId).consumers_.count consumerId ∧
    find (t.registerConsumer consumerId).consumers_ consumerId
      = find t.consumers_ consumerId := by
  have hcount : (t.registerConsumer consumerId).consumers_.count consumerId
      = t.consumers_.count consumerId + 1 := by
    simp [Topic.registerConsumer, List.count_append]
  have hpos : 0 < t.consumers_.count consumerId := List.count_pos_iff.mpr hreg
  refine ⟨rfl, rfl, by simp [Topic.registerConsumer], by simp [Topic.registerConsumer],
    hcount, by omega, ?_⟩
  cases hf : find t.consumers_ consumerId with
  | none => exact absurd hreg ((find_eq_none_iff _ _).mp hf)
  | some index => simp [Topic.registerConsumer, find_push_back, hf]

/-- Witness for C16 (amended) : consumer 7 registers a second time. -/
theorem registerConsumer_registered_appends_witness :
    ((Topic.mk "T" [⟨10, "a"⟩] false [7] [1]).registerConsumer 7).consumers_
      = (Topic.mk "T" [⟨10, "a"⟩] false [7] [1]).consumers_ ++ [7] :=
  (registerConsumer_registered_appends (Topic.mk "T" [⟨10, "a"⟩] false [7] [1]) 7
    (by decide)).1

/-- C17: in every state reached from a fresh topic by any sequence of publish,
registerConsumer, consume and shutdown calls (all of which are defined), every
entry of the offset list satisfies `0 <= offset <= len(log)`, the two lists are
parallel, and so every cursor is at most the log length. -/
theorem cursor_bound_invariant (name : String) (ops : List Op) :
    ∃ t rs, run (Topic.init name) ops = some (t, rs) ∧
      (∀ off ∈ t.consumerOffsets_, 0 ≤ off ∧ off ≤ t.messages_.length) ∧
      (∀ (i : Nat) (off : Nat), t.consumerOffsets_[i]? = some off →
        off ≤ t.messages_.length) ∧
      t.consumers_.length = t.consumerOffsets_.length ∧
      (∀ consumerId c, t.cursor consumerId = some c → 0 ≤ c ∧ c ≤ t.messages_.length) := by
  obtain ⟨t, rs, hrun, hwf, _⟩ := run_inv (init_WF name) ops
  refine ⟨t, rs, hrun, ?_, ?_, hwf.1, ?_⟩
  · intro off hoff
    exact ⟨Nat.zero_le off, hwf.2 off hoff⟩
  · intro i off hi
    exact hwf.2 off (List.getElem?_mem hi)
  · intro consumerId c hcur
    exact ⟨Nat.zero_le c, WF_le hwf hcur⟩

/-- C18: for a registered id `s` with cursor `c` and any call, the cursor of
`s` after the call is `c + 1` when the call is a `consume` by `s` that returned
true, and `c` otherwise: publish, shutdown, registerConsumer, a `consume` by
`s` that returned false or is waiting, and any `consume` by another id leave
it; it never decreases and never grows by more than 1.  In a state satisfying
the class invariant every call is defined. -/
theorem cursor_changes_only_by_own_consume (t : Topic) (s : Int) (c : Nat) (op : Op)
    (hcur : t.cursor s = some c) :
    (∀ t1 r, step t op = some (t1, r) →
      ((∃ m, r = .consumed s true m) → t1.cursor s = some (c + 1)) ∧
      ((¬ ∃ m, r = .consumed s true m) → t1.cursor s = some c) ∧
      (op.isConsumeBy s = false → t1.cursor s = some c) ∧
      (∃ c1, t1.cursor s = some c1 ∧ c ≤ c1 ∧ c1 ≤ c + 1)) ∧
    (∀ m, (t.publish m).cursor s = some c) ∧
    t.shutdown.cursor s = some c ∧
    (∀ j, (t.registerConsumer j).cursor s = some c) ∧
    (∀ j buf ret m t1, t.consume j buf = .returned ret m t1 → (j ≠ s ∨ ret = false) →
      t1.cursor s = some c) ∧
    (∀ buf m t1, t.consume s buf = .returned true m t1 → t1.cursor s = some (c + 1)) ∧
    (t.WF → ∃ t1 r, step t op = some (t1, r)) := by
  have key : ∀ (op : Op) (t1 : Topic) (r : Ret), step t op = some (t1, r) →
      ((∃ m, r = .consumed s true m) → t1.cursor s = some (c + 1)) ∧
      ((¬ ∃ m, r = .consumed s true m) → t1.cursor s = some c) ∧
      (op.isConsumeBy s = false → t1.cursor s = some c) ∧
      (∃ c1, t1.cursor s = some c1 ∧ c ≤ c1 ∧ c1 ≤ c + 1) := by
    intro op t1 r hstep
    have same : t1.cursor s = some c →
        ((∃ m, r = .consumed s true m) → False) →
        ((∃ m, r = .consumed s true m) → t1.cursor s = some (c + 1)) ∧
        ((¬ ∃ m, r = .consumed s true m) → t1.cursor s = some c) ∧
        (op.isConsumeBy s = false → t1.cursor s = some c) ∧
        (∃ c1, t1.cursor s = some c1 ∧ c ≤ c1 ∧ c1 ≤ c + 1) := by
      intro h1 hno
      exact ⟨fun h => absurd h hno, fun _ => h1, fun _ => h1, c, h1, Nat.le_refl c,
        Nat.le_succ c⟩
    rcases step_shape hstep with ⟨m, _, h1, hr⟩ | ⟨j, _, h1, hr⟩ | ⟨_, h1, hr⟩ |
      ⟨j, msg, _, h1, hr⟩ | ⟨j, msg, index, c1, hop1, hf, hoff, _, h1, m, _, hr⟩
    · apply same
      · rw [h1, cursor_publish]; exact hcur
      · rintro ⟨m2, h2⟩; rw [hr] at h2; cases h2
    · apply same
      · rw [h1]; exact cursor_registerConsumer_of_some hcur j
      · rintro ⟨m2, h2⟩; rw [hr] at h2; cases h2
    · apply same
      · rw [h1]; exact hcur
      · rintro ⟨m2, h2⟩; rw [hr] at h2; cases h2
    · apply same
      · rw [h1]; exact hcur
      · rintro ⟨m2, h2⟩
        rcases hr with hr | hr <;> rw [hr] at h2 <;> cases h2
    · by_cases hj : j = s
      · subst hj
        have hc1 : c1 = c := by
          simp only [Topic.cursor, hf, hoff, Option.some.injEq] at hcur
          exact hcur
        subst hc1
        have hnew : t1.cursor j = some (c1 + 1) := by
          rw [h1]; exact cursor_advance_self hf hoff _
        refine ⟨fun _ => hnew, fun hno => absurd ⟨m, hr⟩ hno, ?_,
          c1 + 1, hnew, Nat.le_succ c1, Nat.le_refl _⟩
        intro hby
        rw [hop1] at hby
        simp [Op.isConsumeBy] at hby
      · apply same
        · rw [h1, cursor_advance_other hf (fun h => hj h.symm)]; exact hcur
        · rintro ⟨m2, h2⟩
          rw [hr] at h2
          simp only [Ret.consumed.injEq] at h2
          exact hj h2.1
  refine ⟨key op, ?_, hcur, fun j => cursor_registerConsumer_of_some hcur j, ?_, ?_, ?_⟩
  · intro m
    rw [cursor_publish]; exact hcur
  · intro j buf ret m t1 hcons hor
    have hstep : step t (.consume j buf) = some (t1, .consumed j ret m) := by
      simp [step, hcons]
    apply (key _ _ _ hstep).2.1
    rintro ⟨m2, h2⟩
    simp only [Ret.consumed.injEq] at h2
    rcases hor with h | h
    · exact h h2.1
    · rw [h] at h2
      cases h2.2.1
  · intro buf m t1 hcons
    have hstep : step t (.consume s buf) = some (t1, .consumed s true m) := by
      simp [step, hcons]
    exact (key _ _ _ hstep).1 ⟨m, rfl⟩
  · intro hwf
    obtain ⟨t1, r, hstep, _⟩ := step_inv hwf op
    exact ⟨t1, r, hstep⟩

/-- Witness for C18 : consumer 7 (cursor 0) consumes the first of two entries
while consumer 8 is registered too. -/
theorem cursor_changes_only_by_own_consume_witness :
    (Topic.mk "T" [⟨10, "a"⟩, ⟨11, "b"⟩] false [7, 8] [1, 1]).cursor 7 = some (0 + 1) :=
  (cursor_changes_only_by_own_consume (Topic.mk "T" [⟨10, "a"⟩, ⟨11, "b"⟩] false [7, 8] [0, 1])
    7 0 (Op.consume 7 ⟨0, ""⟩) (by decide)).2.2.2.2.2.1 ⟨0, ""⟩ ⟨10, "a"⟩
    (Topic.mk "T" [⟨10, "a"⟩, ⟨11, "b"⟩] false [7, 8] [1, 1]) rfl

/-- C19: for every state and every call (publish, consume, registerConsumer,
shutdown), the log before the call is an initial segment of the log after it:
every index that held an entry holds the same entry afterwards and the length
does not decrease; the same holds across any sequence of calls. -/
theorem log_append_only (t : Topic) (op : Op) (t1 : Topic) (r : Ret)
    (hstep : step t op = some (t1, r)) :
    t.messages_ <+: t1.messages_ ∧
    (∀ (i : Nat) (m : Message), t.messages_[i]? = some m → t1.messages_[i]? = some m) ∧
    t.messages_.length ≤ t1.messages_.length ∧
    (∀ ops t2 rs, run t1 ops = some (t2, rs) →
      t.messages_ <+: t2.messages_ ∧
      (∀ (i : Nat) (m : Message), t.messages_[i]? = some m → t2.messages_[i]? = some m) ∧
      t.messages_.length ≤ t2.messages_.length) := by
  have grow : ∀ (a b : List Message), (∃ tail, b = a ++ tail) →
      a <+: b ∧ (∀ (i : Nat) (m : Message), a[i]? = some m → b[i]? = some m) ∧
      a.length ≤ b.length := by
    rintro a b ⟨tail, rfl⟩
    refine ⟨List.prefix_append a tail, ?_, by simp⟩
    intro i m hi
    have hlt : i < a.length := (List.getElem?_eq_some.mp hi).1
    rw [List.getElem?_append_left hlt]
    exact hi
  obtain ⟨tail0, h0⟩ := step_log_grows hstep
  obtain ⟨g1, g2, g3⟩ := grow _ _ ⟨tail0, h0⟩
  refine ⟨g1, g2, g3, ?_⟩
  intro ops t2 rs hrun
  obtain ⟨tail1, h1⟩ := run_log_grows hrun
  exact grow _ _ ⟨tail0 ++ tail1, by rw [h1, h0, List.append_assoc]⟩

/-- Witness for C19 : a publish on a one-entry topic. -/
theorem log_append_only_witness :
    (Topic.mk "T" [⟨10, "a"⟩] false [7] [1]).messages_
      <+: (Topic.mk "T" [⟨10, "a"⟩, ⟨11, "b"⟩] false [7] [1]).messages_ :=
  (log_append_only (Topic.mk "T" [⟨10, "a"⟩] false [7] [1]) (Op.publish ⟨11, "b"⟩)
    (Topic.mk "T" [⟨10, "a"⟩, ⟨11, "b"⟩] false [7] [1]) Ret.done rfl).1

/-- C20: a fresh topic has the flag false; in a state with the flag true every
call (publish, consume, registerConsumer, shutdown) leaves it true, and so does
every sequence of calls; a call that turns the flag from false to true is
`shutdown()`, and `shutdown()` always sets it. -/
theorem shutdown_flag_monotone :
    (∀ name, (Topic.init name).isShutdown_ = false) ∧
    (∀ t op t1 r, t.isShutdown_ = true → step t op = some (t1, r) →
      t1.isShutdown_ = true) ∧
    (∀ t ops t1 rs, t.isShutdown_ = true → run t ops = some (t1, rs) →
      t1.isShutdown_ = true) ∧
    (∀ t op t1 r, t.isShutdown_ = false → step t op = some (t1, r) →
      t1.isShutdown_ = true → op = Op.shutdown) ∧
    (∀ t ops t1 rs, t.isShutdown_ = false → run t ops = some (t1, rs) →
      t1.isShutdown_ = true → Op.shutdown ∈ ops) ∧
    (∀ t : Topic, t.shutdown.isShutdown_ = true) := by
  refine ⟨fun _ => rfl, ?_, ?_, ?_, ?_, fun _ => rfl⟩
  · intro t op t1 r hsd hstep
    exact (step_closed hsd hstep).1
  · intro t ops t1 rs hsd hrun
    exact (run_closed hsd hrun).1
  · intro t op t1 r hsd hstep hsd1
    exact step_flag_raised hsd hstep hsd1
  · intro t ops t1 rs hsd hrun hsd1
    by_contra hnot
    have hall : ∀ op ∈ ops, op.isShutdown = false := by
      intro op hop
      cases op with
      | shutdown => exact absurd hop hnot
      | publish m => rfl
      | registerConsumer j => rfl
      | consume j msg => rfl
    have h := (run_open hall hsd hrun).1
    rw [h] at hsd1
    cases hsd1

/-! ## Further facts: calls of different consumers -/

/-- A `consume` by `b` does not see a write to the offset of another id `a`:
its outcome is the same, and the state it returns carries that write. -/
theorem consume_set_other {t : Topic} {a b : Int} {ia : Nat}
    (hfa : find t.consumers_ a = some ia) (hab : b ≠ a) (v : Nat) (buf : Message) :
    ({ t with consumerOffsets_ := t.consumerOffsets_.set ia v } : Topic).consume b buf =
      match t.consume b buf with
      | .returned r m tb =>
        .returned r m { tb with consumerOffsets_ := tb.consumerOffsets_.set ia v }
      | .waiting => .waiting
      | .undefined => .undefined := by
  cases hfb : find t.consumers_ b with
  | none => simp [Topic.consume, hfb]
  | some ib =>
    have h1 := (find_some_lt hfa).2
    have h2 := (find_some_lt hfb).2
    have hne : ia ≠ ib := by
      intro he
      subst he
      rw [h1] at h2
      exact hab (Option.some.inj h2).symm
    have hget : (t.consumerOffsets_.set ia v)[ib]? = t.consumerOffsets_[ib]? :=
      List.getElem?_set_ne hne
    cases hoff : t.consumerOffsets_[ib]? with
    | none => simp [Topic.consume, Topic.waitPredicate, hfb, hget, hoff]
    | some c =>
      by_cases hlt : c < t.messages_.length
      · have hm : t.messages_[c]? = some (t.messages_[c]) := List.getElem?_eq_getElem hlt
        have hnot : ¬ (t.messages_.length ≤ c) := Nat.not_le.mpr hlt
        simp only [Topic.consume, Topic.waitPredicate, hfb, hget, hoff, hlt, hm, hnot,
          decide_True, decide_False, Bool.true_or, Bool.and_false, ge_iff_le]
        simp
        exact List.set_comm v (c + 1) t.consumerOffsets_ hne
      · have hge : t.messages_.length ≤ c := Nat.not_lt.mp hlt
        cases hsd : t.isShutdown_ with
        | true => simp [Topic.consume, Topic.waitPredicate, hfb, hget, hoff, hsd, hge]
        | false => simp [Topic.consume, Topic.waitPredicate, hfb, hget, hoff, hsd, hlt]

/-- A `consume` that returned either left the state as it is (returning false)
or wrote one offset at the position of its own id. -/
theorem consume_returned_shape {t : Topic} {a : Int} {buf : Message} {r : Bool}
    {m : Message} {ta : Topic} (h : t.consume a buf = .returned r m ta) :
    ta = t ∨ ∃ ia v, find t.consumers_ a = some ia ∧
      ta = { t with consumerOffsets_ := t.consumerOffsets_.set ia v } := by
  rcases consume_cases t a buf with ⟨_, hc⟩ | ⟨index, _, _, hc⟩ |
    ⟨index, c, hf, _, _, hc⟩ | ⟨index, c, _, _, _, _, hc⟩ | ⟨index, c, _, _, _, _, hc⟩
  · rw [hc] at h
    simp only [ConsumeResult.returned.injEq] at h
    exact Or.inl h.2.2.symm
  · rw [hc] at h; cases h
  · rw [hc] at h
    simp only [ConsumeResult.returned.injEq] at h
    exact Or.inr ⟨index, c + 1, hf, h.2.2.symm⟩
  · rw [hc] at h
    simp only [ConsumeResult.returned.injEq] at h
    exact Or.inl h.2.2.symm
  · rw [hc] at h; cases h

theorem cursor_none_iff_find {t : Topic} (hwf : t.WF) (j : Int) :
    t.cursor j = none ↔ find t.consumers_ j = none := by
  constructor
  · intro h
    cases hf : find t.consumers_ j with
    | none => rfl
    | some index =>
      obtain ⟨c, hoff⟩ := WF_cursor_of_find hwf hf
      simp [Topic.cursor, hf, hoff] at h
  · intro h
    simp [Topic.cursor, h]

theorem cursor_registerConsumer_WF {t : Topic} (hwf : t.WF) (k j : Int) :
    (t.registerConsumer k).cursor j =
      match t.cursor j with
      | some c => some c
      | none => if k = j then some 0 else none := by
  cases hc : t.cursor j with
  | some c => exact cursor_registerConsumer_of_some hc k
  | none =>
    exact cursor_registerConsumer_of_none hwf.1 ((cursor_none_iff_find hwf j).mp hc) k

/-- A `consume` by `j` leaves the cursor of every other id, registered or not. -/
theorem step_consume_cursor_other {t : Topic} {j k : Int} {buf : Message} {t1 : Topic}
    {r : Ret} (hstep : step t (.consume j buf) = some (t1, r)) (hne : k ≠ j) :
    t1.cursor k = t.cursor k := by
  rcases step_shape hstep with ⟨m, h0, _⟩ | ⟨i, h0, _⟩ | ⟨h0, _⟩ |
    ⟨j2, msg, h0, h1, _⟩ | ⟨j2, msg, index, c1, h0, hf, _, _, h1, _⟩
  · cases h0
  · cases h0
  · cases h0
  · rw [h1]
  · cases h0
    rw [h1]
    exact cursor_advance_other hf hne _

/-- A `consume` leaves the log and the flag. -/
theorem step_consume_log_flag {t : Topic} {j : Int} {buf : Message} {t1 : Topic}
    {r : Ret} (hstep : step t (.consume j buf) = some (t1, r)) :
    t1.messages_ = t.messages_ ∧ t1.isShutdown_ = t.isShutdown_ := by
  rcases step_shape hstep with ⟨m, h0, _⟩ | ⟨i, h0, _⟩ | ⟨h0, _⟩ |
    ⟨j2, msg, h0, h1, _⟩ | ⟨j2, msg, index, c1, h0, hf, _, _, h1, _⟩
  · cases h0
  · cases h0
  · cases h0
  · rw [h1]; exact ⟨rfl, rfl⟩
  · rw [h1]; exact ⟨rfl, rfl⟩

/-- The result of a `consume` and the new cursor of its caller depend only on
the caller's cursor, the log and the flag. -/
theorem step_consume_agree {t u : Topic} {j : Int} {c : Nat}
    (ht : t.cursor j = some c) (hu : u.cursor j = some c)
    (hlog : t.messages_ = u.messages_) (hflag : t.isShutdown_ = u.isShutdown_)
    (buf : Message) :
    ∃ t1 u1 r, step t (.consume j buf) = some (t1, r) ∧
      step u (.consume j buf) = some (u1, r) ∧ t1.cursor j = u1.cursor j := by
  by_cases hlt : c < t.messages_.length
  · obtain ⟨m, t1, hc1, hm1, hcur1, _⟩ := consume_of_lt ht hlt buf
    obtain ⟨m2, u1, hc2, hm2, hcur2, _⟩ := consume_of_lt hu (hlog ▸ hlt) buf
    have hmm : m = m2 := by
      rw [hlog, hm2] at hm1
      exact (Option.some.inj hm1).symm
    subst hmm
    exact ⟨t1, u1, .consumed j true m, by simp [step, hc1], by simp [step, hc2],
      by rw [hcur1, hcur2]⟩
  · have hge : t.messages_.length ≤ c := Nat.not_lt.mp hlt
    have hge2 : u.messages_.length ≤ c := hlog ▸ hge
    cases hsd : t.isShutdown_ with
    | true =>
      have hsd2 : u.isShutdown_ = true := by rw [← hflag, hsd]
      exact ⟨t, u, .consumed j false buf, by simp [step, consume_of_ge ht hge hsd buf],
        by simp [step, consume_of_ge hu hge2 hsd2 buf], by rw [ht, hu]⟩
    | false =>
      have hsd2 : u.isShutdown_ = false := by rw [← hflag, hsd]
      exact ⟨t, u, .waiting j, by simp [step, consume_of_ge_open ht hge hsd buf],
        by simp [step, consume_of_ge_open hu hge2 hsd2 buf], by rw [ht, hu]⟩

theorem agreeOn_refl {t : Topic} (hwf : t.WF) (P : Int → Prop) : t.AgreeOn P t :=
  ⟨hwf, hwf, rfl, rfl, fun _ _ => rfl⟩

/-- The same call made in two states that agree on `P`, the call not being a
`consume` by an id outside `P`: same result, and the new states agree on `P`. -/
theorem step_agree {P : Int → Prop} {t u : Topic} (h : t.AgreeOn P u) (op : Op)
    (hop : ∀ j buf, op = .consume j buf → P j) :
    ∃ t1 u1 r, step t op = some (t1, r) ∧ step u op = some (u1, r) ∧ t1.AgreeOn P u1 := by
  obtain ⟨hwt, hwu, hlog, hflag, hcur⟩ := h
  obtain ⟨t1, r1, hs1, hwt1, _⟩ := step_inv hwt op
  obtain ⟨u1, r2, hs2, hwu1, _⟩ := step_inv hwu op
  cases op with
  | publish m =>
    simp only [step, Option.some.injEq, Prod.mk.injEq] at hs1 hs2
    obtain ⟨e1, e2⟩ := hs1
    obtain ⟨e3, e4⟩ := hs2
    subst e1 e2 e3 e4
    refine ⟨_, _, _, rfl, rfl, hwt1, hwu1, ?_, ?_, ?_⟩
    · unfold Topic.publish
      rw [← hflag]
      cases t.isShutdown_ <;> simp [hlog]
    · unfold Topic.publish
      rw [← hflag]
      cases hsd : t.isShutdown_ <;> simp [hflag ▸ hsd, hsd]
    · intro k hk
      rw [cursor_publish, cursor_publish]
      exact hcur k hk
  | registerConsumer i =>
    simp only [step, Option.some.injEq, Prod.mk.injEq] at hs1 hs2
    obtain ⟨e1, e2⟩ := hs1
    obtain ⟨e3, e4⟩ := hs2
    subst e1 e2 e3 e4
    refine ⟨_, _, _, rfl, rfl, hwt1, hwu1, hlog, hflag, ?_⟩
    intro k hk
    rw [cursor_registerConsumer_WF hwt, cursor_registerConsumer_WF hwu, hcur k hk]
  | shutdown =>
    simp only [step, Option.some.injEq, Prod.mk.injEq] at hs1 hs2
    obtain ⟨e1, e2⟩ := hs1
    obtain ⟨e3, e4⟩ := hs2
    subst e1 e2 e3 e4
    exact ⟨_, _, _, rfl, rfl, hwt1, hwu1, hlog, rfl, hcur⟩
  | consume j buf =>
    have hPj : P j := hop j buf rfl
    have hlf1 := step_consume_log_flag hs1
    have hlf2 := step_consume_log_flag hs2
    have hothers : ∀ k, P k → k ≠ j → t1.cursor k = u1.cursor k := by
      intro k hk hne
      rw [step_consume_cursor_other hs1 hne, step_consume_cursor_other hs2 hne]
      exact hcur k hk
    have hr_and_j : r1 = r2 ∧ t1.cursor j = u1.cursor j := by
      cases hc : t.cursor j with
      | none =>
        have hf1 := (cursor_none_iff_find hwt j).mp hc
        have hf2 := (cursor_none_iff_find hwu j).mp (by rw [← hcur j hPj]; exact hc)
        rw [show step t (.consume j buf) = some (t, .consumed j false buf) by
          simp [step, consume_unknown hf1 buf]] at hs1
        rw [show step u (.consume j buf) = some (u, .consumed j false buf) by
          simp [step, consume_unknown hf2 buf]] at hs2
        simp only [Option.some.injEq, Prod.mk.injEq] at hs1 hs2
        rw [← hs1.1, ← hs1.2, ← hs2.1, ← hs2.2]
        exact ⟨rfl, hcur j hPj⟩
      | some c =>
        have hcu : u.cursor j = some c := by rw [← hcur j hPj]; exact hc
        obtain ⟨t2, u2, r, h1, h2, h3⟩ := step_consume_agree hc hcu hlog hflag buf
        rw [h1] at hs1
        rw [h2] at hs2
        simp only [Option.some.injEq, Prod.mk.injEq] at hs1 hs2
        rw [← hs1.1, ← hs1.2, ← hs2.1, ← hs2.2]
        exact ⟨rfl, h3⟩
    refine ⟨t1, u1, r1, hs1, by rw [hr_and_j.1]; exact hs2, hwt1, hwu1, ?_, ?_, ?_⟩
    · rw [hlf1.1, hlf2.1]; exact hlog
    · rw [hlf1.2, hlf2.2]; exact hflag
    · intro k hk
      by_cases hkj : k = j
      · rw [hkj]; exact hr_and_j.2
      · exact hothers k hk hkj

/-- A `consume` by an id outside `P` made in the first of two states that agree
on `P` keeps them agreeing. -/
theorem step_agree_skip {P : Int → Prop} {t u : Topic} (h : t.AgreeOn P u) {j : Int}
    (hj : ¬ P j) (buf : Message) :
    ∃ t1 r, step t (.consume j buf) = some (t1, r) ∧ t1.AgreeOn P u := by
  obtain ⟨hwt, hwu, hlog, hflag, hcur⟩ := h
  obtain ⟨t1, r1, hs1, hwt1, _⟩ := step_inv hwt (.consume j buf)
  have hlf1 := step_consume_log_flag hs1
  refine ⟨t1, r1, hs1, hwt1, hwu, by rw [hlf1.1]; exact hlog, by rw [hlf1.2]; exact hflag, ?_⟩
  intro k hk
  have hne : k ≠ j := by
    intro he
    rw [he] at hk
    exact hj hk
  rw [step_consume_cursor_other hs1 hne]
  exact hcur k hk

/-- Two states that agree on every id give the same results for every sequence
of calls. -/
theorem run_agree {t u : Topic} (h : t.AgreeOn (fun _ => True) u) (ops : List Op) :
    ∃ t1 u1 rs, run t ops = some (t1, rs) ∧ run u ops = some (u1, rs) ∧
      t1.AgreeOn (fun _ => True) u1 := by
  induction ops generalizing t u with
  | nil => exact ⟨t, u, [], rfl, rfl, h⟩
  | cons op ops ih =>
    obtain ⟨t0, u0, r, hs1, hs2, h0⟩ := step_agree h op (fun _ _ _ => trivial)
    obtain ⟨t1, u1, rs, hr1, hr2, h1⟩ := ih h0
    exact ⟨t1, u1, r :: rs, run_cons_of hs1 hr1, run_cons_of hs2 hr2, h1⟩

theorem resultsOf_cons (consumerId : Int) (r : Ret) (rs : List Ret) :
    resultsOf consumerId (r :: rs) = resultsOf consumerId [r] ++ resultsOf consumerId rs := by
  cases r with
  | done => simp [resultsOf]
  | waiting j => by_cases hj : j = consumerId <;> simp [resultsOf, hj]
  | consumed j ret m => by_cases hj : j = consumerId <;> simp [resultsOf, hj]

theorem received_other {t : Topic} {op : Op} {consumerId : Int}
    (hop : op.isConsumeBy consumerId = false) {t1 : Topic} {r : Ret}
    (hstep : step t op = some (t1, r)) (rs : List Ret) :
    received consumerId (r :: rs) = received consumerId rs := by
  rcases step_shape hstep with ⟨m, _, _, hr⟩ | ⟨j, _, _, hr⟩ | ⟨_, _, hr⟩ |
    ⟨j, msg, hop1, _, hr⟩ | ⟨j, msg, index, c1, hop1, _, _, _, _, m, _, hr⟩
  · rw [hr]; simp [received]
  · rw [hr]; simp [received]
  · rw [hr]; simp [received]
  · rcases hr with hr | hr <;> rw [hr] <;> simp [received]
  · subst hop1
    have hne : ¬ j = consumerId := by
      intro he
      simp [Op.isConsumeBy, he] at hop
    rw [hr]; simp [received, hne]

/-- Taking the `consume` calls of one id `b` out of a sequence of calls changes
nothing for any other id: same results of its `consume` calls, same messages
received. -/
theorem run_without_consumer {b : Int} {t u : Topic} (h : t.AgreeOn (fun k => k ≠ b) u)
    (ops : List Op) :
    ∃ t1 rs u1 rs2, run t ops = some (t1, rs) ∧
      run u (ops.filter (fun op => !op.isConsumeBy b)) = some (u1, rs2) ∧
      t1.AgreeOn (fun k => k ≠ b) u1 ∧
      ∀ a, a ≠ b → resultsOf a rs = resultsOf a rs2 ∧ received a rs = received a rs2 := by
  induction ops generalizing t u with
  | nil => exact ⟨t, [], u, [], rfl, rfl, h, fun _ _ => ⟨rfl, rfl⟩⟩
  | cons op ops ih =>
    cases hby : op.isConsumeBy b with
    | true =>
      cases op with
      | publish m => simp [Op.isConsumeBy] at hby
      | registerConsumer j => simp [Op.isConsumeBy] at hby
      | shutdown => simp [Op.isConsumeBy] at hby
      | consume j buf =>
        have hj : j = b := by simpa [Op.isConsumeBy] using hby
        subst hj
        obtain ⟨t0, r, hs, h0⟩ := step_agree_skip h (fun hne => hne rfl) buf
        obtain ⟨t1, rs, u1, rs2, hr1, hr2, h1, hres⟩ := ih h0
        refine ⟨t1, r :: rs, u1, rs2, run_cons_of hs hr1, ?_, h1, ?_⟩
        · simpa [List.filter, hby] using hr2
        · intro a ha
          have hne : ¬ j = a := fun he => ha he.symm
          have hoa : (Op.consume j buf).isConsumeBy a = false := by
            simp [Op.isConsumeBy, hne]
          rw [resultsOf_other hoa hs, received_other hoa hs]
          exact hres a ha
    | false =>
      have hop : ∀ j buf, op = .consume j buf → j ≠ b := by
        intro j buf he hjb
        rw [he, hjb] at hby
        simp [Op.isConsumeBy] at hby
      obtain ⟨t0, u0, r, hs1, hs2, h0⟩ := step_agree h op hop
      obtain ⟨t1, rs, u1, rs2, hr1, hr2, h1, hres⟩ := ih h0
      refine ⟨t1, r :: rs, u1, r :: rs2, run_cons_of hs1 hr1, ?_, h1, ?_⟩
      · simp only [List.filter, hby, Bool.not_false]
        exact run_cons_of hs2 hr2
      · intro a ha
        rw [resultsOf_cons, resultsOf_cons a r rs2, received_cons, received_cons a r rs2,
          (hres a ha).1, (hres a ha).2]
        exact ⟨rfl, rfl⟩

/-! ## Claims about independent consumers -/

/-- C21: for two distinct consumer ids `a` and `b` and a state in which both
`consume` calls return, `consume(a)` followed by `consume(b)` gives the same two
results and the same final state as `consume(b)` followed by `consume(a)`.
Consequently, in a state satisfying the class invariant, taking the `consume`
calls of `b` out of any sequence of calls leaves the results of the `consume`
calls of `a` and the messages `a` receives as they are, so they are the same
for every way of interleaving them with the `consume` calls of `b`. -/
theorem independent_pacing (t : Topic) (a b : Int) (bufa bufb : Message)
    (ra rb : Bool) (ma mb : Message) (ta tb : Topic) (hab : a ≠ b)
    (ha : t.consume a bufa = .returned ra ma ta)
    (hb : t.consume b bufb = .returned rb mb tb) :
    (∃ tab, ta.consume b bufb = .returned rb mb tab ∧
      tb.consume a bufa = .returned ra ma tab ∧
      run t [Op.consume a bufa, Op.consume b bufb]
        = some (tab, [Ret.consumed a ra ma, Ret.consumed b rb mb]) ∧
      run t [Op.consume b bufb, Op.consume a bufa]
        = some (tab, [Ret.consumed b rb mb, Ret.consumed a ra ma])) ∧
    (t.WF → ∀ ops : List Op, ∃ t1 rs t2 rs2, run t ops = some (t1, rs) ∧
      run t (ops.filter (fun op => !op.isConsumeBy b)) = some (t2, rs2) ∧
      resultsOf a rs = resultsOf a rs2 ∧ received a rs = received a rs2) := by
  have hba : b ≠ a := fun h => hab h.symm
  have core : ∃ tab, ta.consume b bufb = .returned rb mb tab ∧
      tb.consume a bufa = .returned ra ma tab := by
    rcases consume_returned_shape ha with hta | ⟨ia, va, hfa, hta⟩
    · rcases consume_returned_shape hb with htb | ⟨ib, vb, hfb, htb⟩
      · exact ⟨t, by rw [hta]; rw [htb] at hb; exact hb, by rw [htb]; rw [hta] at ha; exact ha⟩
      · refine ⟨tb, by rw [hta]; exact hb, ?_⟩
        rw [htb, consume_set_other hfb hab vb bufa, ha, hta]
    · rcases consume_returned_shape hb with htb | ⟨ib, vb, hfb, htb⟩
      · refine ⟨ta, ?_, by rw [htb]; exact ha⟩
        rw [hta, consume_set_other hfa hba va bufb, hb, htb]
      · have hne : ia ≠ ib := by
          intro he
          subst he
          have h1 := (find_some_lt hfa).2
          have h2 := (find_some_lt hfb).2
          rw [h1] at h2
          exact hab (Option.some.inj h2)
        refine ⟨{ t with consumerOffsets_ := (t.consumerOffsets_.set ib vb).set ia va }, ?_, ?_⟩
        · rw [hta, consume_set_other hfa hba va bufb, hb, htb]
        · rw [htb, consume_set_other hfb hab vb bufa, ha, hta]
          simp only [ConsumeResult.returned.injEq, Topic.mk.injEq, true_and]
          exact List.set_comm va vb t.consumerOffsets_ hne
  obtain ⟨tab, h1, h2⟩ := core
  refine ⟨⟨tab, h1, h2, by simp [run, step, ha, h1], by simp [run, step, hb, h2]⟩, ?_⟩
  intro hwf ops
  obtain ⟨t1, rs, t2, rs2, hr1, hr2, _, hres⟩ :=
    run_without_consumer (agreeOn_refl hwf (fun k => k ≠ b)) ops
  exact ⟨t1, rs, t2, rs2, hr1, hr2, (hres a hab).1, (hres a hab).2⟩

/-- Witness for C21 : consumers 7 and 8 both have an unread entry. -/
theorem independent_pacing_witness :
    ∃ tab,
      (Topic.mk "T" [⟨10, "a"⟩, ⟨11, "b"⟩] false [7, 8] [1, 0]).consume 8 ⟨0, ""⟩
        = .returned true ⟨10, "a"⟩ tab ∧
      (Topic.mk "T" [⟨10, "a"⟩, ⟨11, "b"⟩] false [7, 8] [0, 1]).consume 7 ⟨0, ""⟩
        = .returned true ⟨10, "a"⟩ tab ∧
      run (Topic.mk "T" [⟨10, "a"⟩, ⟨11, "b"⟩] false [7, 8] [0, 0])
          [Op.consume 7 ⟨0, ""⟩, Op.consume 8 ⟨0, ""⟩]
        = some (tab, [Ret.consumed 7 true ⟨10, "a"⟩, Ret.consumed 8 true ⟨10, "a"⟩]) ∧
      run (Topic.mk "T" [⟨10, "a"⟩, ⟨11, "b"⟩] false [7, 8] [0, 0])
          [Op.consume 8 ⟨0, ""⟩, Op.consume 7 ⟨0, ""⟩]
        = some (tab, [Ret.consumed 8 true ⟨10, "a"⟩, Ret.consumed 7 true ⟨10, "a"⟩]) :=
  (independent_pacing (Topic.mk "T" [⟨10, "a"⟩, ⟨11, "b"⟩] false [7, 8] [0, 0]) 7 8
    ⟨0, ""⟩ ⟨0, ""⟩ true true ⟨10, "a"⟩ ⟨10, "a"⟩
    (Topic.mk "T" [⟨10, "a"⟩, ⟨11, "b"⟩] false [7, 8] [1, 0])
    (Topic.mk "T" [⟨10, "a"⟩, ⟨11, "b"⟩] false [7, 8] [0, 1]) (by decide) rfl rfl).1

/-! ## Further facts: drained consumers and the consumer list -/

/-- A consumer that has read the whole log of a shut-down topic stays there:
whatever is called afterwards, its cursor, the log and the flag stay and each
of its `consume` calls returns false. -/
theorem run_drained_absorbing {t : Topic} {ops : List Op} {consumerId : Int} {c : Nat}
    (hcur : t.cursor consumerId = some c) (hge : t.messages_.length ≤ c)
    (hsd : t.isShutdown_ = true) {t1 : Topic} {rs : List Ret}
    (hrun : run t ops = some (t1, rs)) :
    t1.cursor consumerId = some c ∧ t1.messages_ = t.messages_ ∧ t1.isShutdown_ = true ∧
      resultsOf consumerId rs = (callsOf consumerId ops).map (Ret.consumed consumerId false) := by
  induction ops generalizing t rs with
  | nil =>
    simp only [run, Option.some.injEq, Prod.mk.injEq] at hrun
    rw [← hrun.1, ← hrun.2]
    exact ⟨hcur, rfl, hsd, by simp [resultsOf, callsOf]⟩
  | cons op ops ih =>
    obtain ⟨t0, r, rs1, hstep, hrest, hrs⟩ := run_cons_some hrun
    obtain ⟨hsd0, hlog0⟩ := step_closed hsd hstep
    cases hby : op.isConsumeBy consumerId with
    | false =>
      have hcur0 := step_cursor_frame hby hstep hcur
      obtain ⟨h1, h2, h3, h4⟩ := ih hcur0 (by rw [hlog0]; exact hge) hsd0 hrest
      refine ⟨h1, by rw [h2, hlog0], h3, ?_⟩
      rw [hrs, resultsOf_other hby hstep, callsOf_other hby, h4]
    | true =>
      cases op with
      | publish m => simp [Op.isConsumeBy] at hby
      | registerConsumer j => simp [Op.isConsumeBy] at hby
      | shutdown => simp [Op.isConsumeBy] at hby
      | consume j buf =>
        have hj : j = consumerId := by simpa [Op.isConsumeBy] using hby
        subst hj
        have hst : step t (.consume j buf) = some (t, .consumed j false buf) := by
          simp [step, consume_of_ge hcur hge hsd buf]
        rw [hst] at hstep
        simp only [Option.some.injEq, Prod.mk.injEq] at hstep
        obtain ⟨e1, e2⟩ := hstep
        subst e1 e2
        obtain ⟨h1, h2, h3, h4⟩ := ih hcur hge hsd hrest
        refine ⟨h1, h2, h3, ?_⟩
        rw [hrs]
        simp [resultsOf, callsOf, h4]

theorem find_append_of_some {cs : List Int} {consumerId : Int} {index : Nat}
    (h : find cs consumerId = some index) (tail : List Int) :
    find (cs ++ tail) consumerId = some index := by
  induction cs generalizing index with
  | nil => simp [find] at h
  | cons c cs ih =>
    by_cases hc : c = consumerId
    · simp only [find, hc, if_true] at h
      simp [find, hc, h]
    · simp only [find, hc, if_false] at h
      cases hf : find cs consumerId with
      | none => simp [hf] at h
      | some i =>
        simp only [hf, Option.some.injEq] at h
        have hi : find (cs ++ tail) consumerId = some i := ih hf
        simp [find, hc, hi, h]

/-- No call removes an entry from the consumer list or the offset list; both
grow by the same number of entries. -/
theorem step_consumers_grow {t : Topic} {op : Op} {t1 : Topic} {r : Ret}
    (hstep : step t op = some (t1, r)) :
    ∃ tail, t1.consumers_ = t.consumers_ ++ tail ∧
      t1.consumerOffsets_.length = t.consumerOffsets_.length + tail.length := by
  rcases step_shape hstep with ⟨m, _, h1, _⟩ | ⟨j, _, h1, _⟩ | ⟨_, h1, _⟩ |
    ⟨j, msg, _, h1, _⟩ | ⟨j, msg, index, c1, _, _, _, _, h1, _⟩
  · rw [h1]
    unfold Topic.publish
    split <;> exact ⟨[], by simp, by simp⟩
  · rw [h1]; exact ⟨[j], rfl, by simp [Topic.registerConsumer]⟩
  · rw [h1]; exact ⟨[], by simp [Topic.shutdown], by simp [Topic.shutdown]⟩
  · rw [h1]; exact ⟨[], by simp, by simp⟩
  · rw [h1]; exact ⟨[], by simp, by simp⟩

theorem run_consumers_grow {t : Topic} {ops : List Op} {t1 : Topic} {rs : List Ret}
    (hrun : run t ops = some (t1, rs)) :
    ∃ tail, t1.consumers_ = t.consumers_ ++ tail ∧
      t1.consumerOffsets_.length = t.consumerOffsets_.length + tail.length := by
  induction ops generalizing t rs with
  | nil =>
    simp only [run, Option.some.injEq, Prod.mk.injEq] at hrun
    rw [← hrun.1]
    exact ⟨[], by simp, by simp⟩
  | cons op ops ih =>
    obtain ⟨t0, r, rs1, hstep, hrest, _⟩ := run_cons_some hrun
    obtain ⟨tail0, h0, l0⟩ := step_consumers_grow hstep
    obtain ⟨tail1, h1, l1⟩ := ih hrest
    refine ⟨tail0 ++ tail1, by rw [h1, h0, List.append_assoc], ?_⟩
    rw [l1, l0, List.length_append]
    omega

theorem find_eq_indexOf (cs : List Int) (consumerId : Int) :
    find cs consumerId = if consumerId ∈ cs then some (cs.indexOf consumerId) else none := by
  induction cs with
  | nil => simp [find]
  | cons c cs ih =>
    by_cases hc : c = consumerId
    · simp [find, hc]
    · have hc2 : ¬ consumerId = c := fun h => hc h.symm
      rw [List.indexOf_cons_ne _ hc]
      simp only [find, hc, if_false, ih, List.mem_cons, hc2, false_or]
      by_cases hm : consumerId ∈ cs <;> simp [hm]

/-- The cursor read through `std::find` is the offset at the first occurrence. -/
theorem cursor_eq_offsetAtFirstOccurrence (t : Topic) (consumerId : Int) :
    t.cursor consumerId = t.offsetAtFirstOccurrence consumerId := by
  unfold Topic.cursor Topic.offsetAtFirstOccurrence
  rw [find_eq_indexOf]
  by_cases hm : consumerId ∈ t.consumers_ <;> simp [hm]

/-! ## Claims about drained consumers, late and repeated registration -/

/-- C22: once a registered consumer id is in a state with the flag set and its
cursor equal to the log length, then after any further sequence of publish,
registerConsumer, shutdown and consume calls by anybody its cursor still equals
the log length, the flag is still set, every `consume` call it made returned
false and every further one returns false; in a state satisfying the class
invariant every such sequence is defined. -/
theorem drained_is_absorbing (t : Topic) (consumerId : Int)
    (hcur : t.cursor consumerId = some t.messages_.length)
    (hsd : t.isShutdown_ = true) :
    (∀ ops t1 rs, run t ops = some (t1, rs) →
      t1.cursor consumerId = some t1.messages_.length ∧
      t1.messages_ = t.messages_ ∧ t1.isShutdown_ = true ∧
      resultsOf consumerId rs = (callsOf consumerId ops).map (Ret.consumed consumerId false) ∧
      ∀ buf, t1.consume consumerId buf = .returned false buf t1) ∧
    (t.WF → ∀ ops, ∃ t1 rs, run t ops = some (t1, rs)) := by
  constructor
  · intro ops t1 rs hrun
    obtain ⟨h1, h2, h3, h4⟩ := run_drained_absorbing hcur (Nat.le_refl _) hsd hrun
    have h1b : t1.cursor consumerId = some t1.messages_.length := by rw [h2]; exact h1
    exact ⟨h1b, h2, h3, h4, fun buf => consume_of_ge h1b (Nat.le_refl _) h3 buf⟩
  · intro hwf ops
    obtain ⟨t1, rs, hrun, _⟩ := run_inv hwf ops
    exact ⟨t1, rs, hrun⟩

/-- Witness for C22 : consumer 7 has read the one entry of a shut-down topic;
afterwards somebody publishes, consumer 8 registers and consumer 7 consumes. -/
theorem drained_is_absorbing_witness :
    ∃ t1 rs, run (Topic.mk "T" [⟨10, "a"⟩] true [7] [1])
      [Op.publish ⟨11, "b"⟩, Op.registerConsumer 8, Op.consume 7 ⟨0, ""⟩] = some (t1, rs) :=
  (drained_is_absorbing (Topic.mk "T" [⟨10, "a"⟩] true [7] [1]) 7 (by decide) (by decide)).2
    (by decide) [Op.publish ⟨11, "b"⟩, Op.registerConsumer 8, Op.consume 7 ⟨0, ""⟩]

/-- C24: `registerConsumer` is accepted on a shut-down topic: in a state with
the flag set, parallel lists and a log of `n` messages, registering a new id
gives it cursor 0, and its following `n` `consume` calls return the `n` log
entries in log order while the (n+1)-th and every later one returns false. -/
theorem register_after_shutdown (t : Topic) (consumerId : Int)
    (hsd : t.isShutdown_ = true)
    (hlen : t.consumers_.length = t.consumerOffsets_.length)
    (hnew : consumerId ∉ t.consumers_) :
    step t (.registerConsumer consumerId) = some (t.registerConsumer consumerId, .done) ∧
    (t.registerConsumer consumerId).cursor consumerId = some 0 ∧
    (t.registerConsumer consumerId).messages_ = t.messages_ ∧
    (∀ bufs later : List Message, bufs.length = t.messages_.length →
      ∃ t1, run (t.registerConsumer consumerId) ((bufs ++ later).map (Op.consume consumerId))
          = some (t1, t.messages_.map (Ret.consumed consumerId true) ++
              later.map (Ret.consumed consumerId false)) ∧
        t1.messages_ = t.messages_) := by
  have hf := (find_eq_none_iff t.consumers_ consumerId).mpr hnew
  have hc0 : (t.registerConsumer consumerId).cursor consumerId = some 0 := by
    rw [cursor_registerConsumer_of_none hlen hf]
    simp
  refine ⟨rfl, hc0, rfl, ?_⟩
  intro bufs later hb
  have hb0 : 0 + bufs.length ≤ (t.registerConsumer consumerId).messages_.length := by
    show 0 + bufs.length ≤ t.messages_.length
    omega
  obtain ⟨t1, hrun1, hcur1, hlog1, hsd1⟩ := run_drain bufs hc0 hb0
  have hge : t1.messages_.length ≤ 0 + bufs.length := by
    rw [hlog1]
    show t.messages_.length ≤ 0 + bufs.length
    omega
  have hrun2 := run_drained later hcur1 hge (by rw [hsd1]; exact hsd)
  refine ⟨t1, ?_, hlog1⟩
  have hall := run_append_of hrun1 hrun2
  rw [show (t.registerConsumer consumerId).messages_ = t.messages_ from rfl, hb,
    List.drop_zero, List.take_length, ← List.map_append] at hall
  exact hall

/-- Witness for C24 : consumer 9 registers on a shut-down topic with two
entries and calls `consume` three times. -/
theorem register_after_shutdown_witness :
    ∃ t1, run ((Topic.mk "T" [⟨10, "a"⟩, ⟨11, "b"⟩] true [7] [2]).registerConsumer 9)
        ((([⟨0, ""⟩, ⟨0, ""⟩] : List Message) ++ ([⟨5, "x"⟩] : List Message)).map
          (Op.consume 9))
      = some (t1,
          (Topic.mk "T" [⟨10, "a"⟩, ⟨11, "b"⟩] true [7] [2]).messages_.map
              (Ret.consumed 9 true) ++
            ([⟨5, "x"⟩] : List Message).map (Ret.consumed 9 false)) ∧
      t1.messages_ = (Topic.mk "T" [⟨10, "a"⟩, ⟨11, "b"⟩] true [7] [2]).messages_ :=
  (register_after_shutdown (Topic.mk "T" [⟨10, "a"⟩, ⟨11, "b"⟩] true [7] [2]) 9
    (by decide) (by decide) (by decide)).2.2.2
    ([⟨0, ""⟩, ⟨0, ""⟩] : List Message) ([⟨5, "x"⟩] : List Message) (by decide)

/-- C28: in a state satisfying the class invariant, `registerConsumer(id)` for
an id that is already registered leaves, for every id, the position `consume`
finds and the offset stored there (which is the offset at the position of the
first occurrence of the id); every subsequent sequence of calls (consume
calls in particular) is defined and returns the same results as it does
without the second registration. -/
theorem reregistration_keeps_cursor (t : Topic) (consumerId : Int) (hwf : t.WF)
    (hreg : consumerId ∈ t.consumers_) :
    (∀ j, find (t.registerConsumer consumerId).consumers_ j = find t.consumers_ j) ∧
    (∀ j, (t.registerConsumer consumerId).cursor j = t.cursor j) ∧
    (∀ j, t.cursor j = t.offsetAtFirstOccurrence j) ∧
    (∀ j, (t.registerConsumer consumerId).offsetAtFirstOccurrence j
      = t.offsetAtFirstOccurrence j) ∧
    (∀ ops : List Op, ∃ t1 u1 rs,
      run (t.registerConsumer consumerId) ops = some (t1, rs) ∧
      run t ops = some (u1, rs) ∧
      ∀ j, t1.cursor j = u1.cursor j) := by
  have hfind : ∀ j, find (t.registerConsumer consumerId).consumers_ j = find t.consumers_ j := by
    intro j
    cases hf : find t.consumers_ j with
    | some index => exact find_append_of_some hf [consumerId]
    | none =>
      have hne : ¬ consumerId = j := by
        intro he
        rw [← he] at hf
        exact (find_eq_none_iff _ _).mp hf hreg
      simp [Topic.registerConsumer, find_push_back, hf, hne]
  have hcur : ∀ j, (t.registerConsumer consumerId).cursor j = t.cursor j := by
    intro j
    rw [cursor_registerConsumer_WF hwf]
    cases hc : t.cursor j with
    | some c => rfl
    | none =>
      have hf := (cursor_none_iff_find hwf j).mp hc
      have hne : ¬ consumerId = j := by
        intro he
        rw [← he] at hf
        exact (find_eq_none_iff _ _).mp hf hreg
      simp [hne]
  refine ⟨hfind, hcur, cursor_eq_offsetAtFirstOccurrence t, ?_, ?_⟩
  · intro j
    rw [← cursor_eq_offsetAtFirstOccurrence, ← cursor_eq_offsetAtFirstOccurrence]
    exact hcur j
  intro ops
  have hag : (t.registerConsumer consumerId).AgreeOn (fun _ => True) t :=
    ⟨registerConsumer_WF hwf consumerId, hwf, rfl, rfl, fun j _ => hcur j⟩
  obtain ⟨t1, u1, rs, h1, h2, h3⟩ := run_agree hag ops
  exact ⟨t1, u1, rs, h1, h2, fun j => h3.2.2.2.2 j trivial⟩

/-- Witness for C28 : consumer 7 (cursor 1 of 2) registers again. -/
theorem reregistration_keeps_cursor_witness :
    ((Topic.mk "T" [⟨10, "a"⟩, ⟨11, "b"⟩] false [7, 8] [1, 0]).registerConsumer 7).cursor 7
      = (Topic.mk "T" [⟨10, "a"⟩, ⟨11, "b"⟩] false [7, 8] [1, 0]).cursor 7 :=
  (reregistration_keeps_cursor (Topic.mk "T" [⟨10, "a"⟩, ⟨11, "b"⟩] false [7, 8] [1, 0]) 7
    (by decide) (by decide)).2.1 7

/-! ## Claims about index safety -/

/-- C29: in every state reached from a fresh topic the consumer list and the
offset list have the same length, so the position `consume` finds for an id is
a valid index of the offset list and the wait predicate can be evaluated there;
after any further calls (registrations while the `consume` is waiting included)
neither list is shorter, the old consumer list is an initial segment of the new
one, and the position found before is still the position of that id and still
a valid index of the offset list. -/
theorem parallel_lists_never_shrink (name : String) (ops : List Op) :
    ∃ t rs, run (Topic.init name) ops = some (t, rs) ∧
      t.consumers_.length = t.consumerOffsets_.length ∧
      (∀ consumerId index, find t.consumers_ consumerId = some index →
        index < t.consumerOffsets_.length ∧ t.waitPredicate index ≠ none) ∧
      ∀ later : List Op, ∃ t2 rs2, run t later = some (t2, rs2) ∧
        t2.consumers_.length = t2.consumerOffsets_.length ∧
        t.consumers_ <+: t2.consumers_ ∧
        t.consumers_.length ≤ t2.consumers_.length ∧
        t.consumerOffsets_.length ≤ t2.consumerOffsets_.length ∧
        ∀ consumerId index, find t.consumers_ consumerId = some index →
          find t2.consumers_ consumerId = some index ∧
          index < t2.consumerOffsets_.length ∧ t2.waitPredicate index ≠ none := by
  obtain ⟨t, rs, hrun, hwf, _⟩ := run_inv (init_WF name) ops
  have valid : ∀ (u : Topic), u.WF → ∀ consumerId index,
      find u.consumers_ consumerId = some index →
      index < u.consumerOffsets_.length ∧ u.waitPredicate index ≠ none := by
    intro u hu consumerId index hf
    obtain ⟨c, hoff⟩ := WF_cursor_of_find hu hf
    refine ⟨(List.getElem?_eq_some.mp hoff).1, ?_⟩
    simp [Topic.waitPredicate, hoff]
  refine ⟨t, rs, hrun, hwf.1, valid t hwf, ?_⟩
  intro later
  obtain ⟨t2, rs2, hrun2, hwf2, _⟩ := run_inv hwf later
  obtain ⟨tail, hcs, hlen⟩ := run_consumers_grow hrun2
  refine ⟨t2, rs2, hrun2, hwf2.1, ?_, ?_, by omega, ?_⟩
  · rw [hcs]; exact List.prefix_append _ _
  · rw [hcs, List.length_append]; omega
  · intro consumerId index hf
    have hf2 : find t2.consumers_ consumerId = some index := by
      rw [hcs]; exact find_append_of_some hf tail
    exact ⟨hf2, valid t2 hwf2 consumerId index hf2⟩

/-- C30: whenever `consume` reaches the statement that copies
`messages_[offset]` (the wait predicate was true and the end-of-stream branch
was not taken), the offset is strictly less than the log length and the entry
exists; this holds in every state, and in every state reached from a fresh
topic no `consume` call makes an out-of-range access. -/
theorem log_read_in_bounds :
    (∀ (t : Topic) (index off : Nat),
      t.waitPredicate index = some true → t.consumerOffsets_[index]? = some off →
      (t.isShutdown_ && decide (off ≥ t.messages_.length)) = false →
      off < t.messages_.length ∧ ∃ m, t.messages_[off]? = some m) ∧
    (∀ (t : Topic) consumerId buf m t1, t.consume consumerId buf = .returned true m t1 →
      ∃ off, t.cursor consumerId = some off ∧ off < t.messages_.length ∧
        t.messages_[off]? = some m) ∧
    (∀ name ops, ∃ t rs, run (Topic.init name) ops = some (t, rs) ∧
      ∀ consumerId buf, t.consume consumerId buf ≠ .undefined) := by
  refine ⟨?_, ?_, ?_⟩
  · intro t index off hw hoff hbr
    simp only [Topic.waitPredicate, hoff, Option.some.injEq, Bool.or_eq_true,
      decide_eq_true_eq] at hw
    have hlt : off < t.messages_.length := by
      rcases hw with h | h
      · exact h
      · by_contra hge
        simp [h, Nat.not_lt.mp hge] at hbr
    exact ⟨hlt, t.messages_[off], List.getElem?_eq_getElem hlt⟩
  · intro t consumerId buf m t1 hcons
    rcases consume_cases t consumerId buf with ⟨_, hc⟩ | ⟨index, _, _, hc⟩ |
      ⟨index, c, hf, hoff, hlt, hc⟩ | ⟨index, c, _, _, _, _, hc⟩ | ⟨index, c, _, _, _, _, hc⟩
    · rw [hc] at hcons; cases hcons
    · rw [hc] at hcons; cases hcons
    · have hm : t.messages_[c]? = some (t.messages_[c]) := List.getElem?_eq_getElem hlt
      rw [hc, hm] at hcons
      simp only [Option.getD_some, ConsumeResult.returned.injEq, true_and] at hcons
      refine ⟨c, by simp [Topic.cursor, hf, hoff], hlt, ?_⟩
      rw [hm, hcons.1]
    · rw [hc] at hcons; cases hcons
    · rw [hc] at hcons; cases hcons
  · intro name ops
    obtain ⟨t, rs, hrun, hwf, _⟩ := run_inv (init_WF name) ops
    refine ⟨t, rs, hrun, ?_⟩
    intro consumerId buf
    obtain ⟨t1, r, hstep, _⟩ := step_inv hwf (.consume consumerId buf)
    intro hund
    simp [step, hund] at hstep

/-! ## Further facts: the consumer and producer loops -/

/-- The consumer loop on a shut-down topic: it hands out the unread entries in
order, at most as many as it has iterations, and finishes. -/
theorem consumeLoopFrom_closed (n : Nat) {c : Consumer} {t : Topic} {cur : Nat}
    (out : List Message) (hrun : c.running_ = true) (hsd : t.isShutdown_ = true)
    (hcur : t.cursor c.id_ = some cur)
    (hmr : c.messagesReceived_ + (min n (t.messages_.length - cur) : Nat) ≤ INT_MAX) :
    ∃ t1, consumeLoopFrom n c t out
        = .finished t1
            { c with messagesReceived_ :=
                c.messagesReceived_ + (min n (t.messages_.length - cur) : Nat) }
            (out ++ (t.messages_.drop cur).take n) ∧
      t1.cursor c.id_ = some (cur + min n (t.messages_.length - cur)) ∧
      t1.messages_ = t.messages_ ∧ t1.isShutdown_ = true ∧
      (∀ other, other ≠ c.id_ → t1.cursor other = t.cursor other) ∧
      (t.WF → t1.WF) := by
  induction n generalizing c t cur out with
  | zero =>
    refine ⟨t, ?_, by simpa using hcur, rfl, hsd, fun _ _ => rfl, fun h => h⟩
    cases c
    simp [consumeLoopFrom]
  | succ n ih =>
    obtain ⟨cid, cname, crun, cmr⟩ := c
    simp only at hrun hcur hmr
    subst hrun
    by_cases hlt : cur < t.messages_.length
    · obtain ⟨m, t0, hcons, hm, hcur0, hlog0, hsd0⟩ := consume_of_lt hcur hlt ⟨0, ""⟩
      have hstep : step t (.consume cid ⟨0, ""⟩) = some (t0, .consumed cid true m) := by
        simp [step, hcons]
      have hmc : t.messages_[cur] = m := by
        rw [List.getElem?_eq_getElem hlt] at hm
        exact Option.some.inj hm
      have hlt2 : cmr < INT_MAX := by omega
      have hmr0 : cmr + 1 + (min n (t0.messages_.length - (cur + 1)) : Nat) ≤ INT_MAX := by
        rw [hlog0]
        omega
      obtain ⟨t1, hloop, hcur1, hlog1, hsd1, hoth1, hwf1⟩ :=
        @ih ⟨cid, cname, true, cmr + 1⟩ t0 (cur + 1) (out ++ [m]) rfl
          (by rw [hsd0]; exact hsd) hcur0 hmr0
      simp only at hloop hcur1 hoth1
      refine ⟨t1, ?_, ?_, by rw [hlog1, hlog0], hsd1, ?_, ?_⟩
      · simp only [consumeLoopFrom, if_true, hcons, hlt2]
        rw [hloop, hlog0, List.drop_eq_getElem_cons hlt, List.take_succ_cons, hmc]
        have harith : cmr + 1 + (min n (t.messages_.length - (cur + 1)) : Nat)
            = cmr + (min (n + 1) (t.messages_.length - cur) : Nat) := by
          omega
        simp only [List.append_assoc, List.singleton_append, harith]
      · rw [hcur1, hlog0]
        congr 1
        omega
      · intro other hne
        rw [hoth1 other hne]
        exact step_consume_cursor_other hstep hne
      · intro hwf
        apply hwf1
        obtain ⟨t0b, r, hstep2, hwf0, _⟩ := step_inv hwf (.consume cid ⟨0, ""⟩)
        rw [hstep] at hstep2
        simp only [Option.some.injEq, Prod.mk.injEq] at hstep2
        rw [hstep2.1]
        exact hwf0
    · have hge : t.messages_.length ≤ cur := Nat.not_lt.mp hlt
      have hcons := consume_of_ge hcur hge hsd ⟨0, ""⟩
      have hz : min (n + 1) (t.messages_.length - cur) = 0 := by omega
      have hd : t.messages_.drop cur = [] := List.drop_eq_nil_of_le hge
      refine ⟨t, ?_, by rw [hz]; simpa using hcur, rfl, hsd, fun _ _ => rfl, fun h => h⟩
      simp [consumeLoopFrom, hcons, hz, hd]

theorem published_map_publish (ms : List Message) : published (ms.map Op.publish) = ms := by
  induction ms with
  | nil => rfl
  | cons m ms ih => simp [published, ih]

/-- Publishing a list of messages on a topic that is not shut down appends
them to the log in order and touches nothing else. -/
theorem run_publishes {t : Topic} (hwf : t.WF) (hsd : t.isShutdown_ = false)
    (ms : List Message) :
    ∃ t1 rs, run t (ms.map Op.publish) = some (t1, rs) ∧ t1.WF ∧
      t1.messages_ = t.messages_ ++ ms ∧ t1.isShutdown_ = false ∧
      ∀ consumerId c, t.cursor consumerId = some c → t1.cursor consumerId = some c := by
  obtain ⟨t1, rs, hrun, hwf1, _⟩ := run_inv hwf (ms.map Op.publish)
  have hno : ∀ op ∈ ms.map Op.publish, op.isShutdown = false := by
    intro op hop
    obtain ⟨m, _, rfl⟩ := List.mem_map.mp hop
    rfl
  have hopen := run_open hno hsd hrun
  refine ⟨t1, rs, hrun, hwf1, by rw [hopen.2, published_map_publish], hopen.1, ?_⟩
  intro consumerId c hc
  apply run_cursor_frame _ hrun hc
  intro op hop
  obtain ⟨m, _, rfl⟩ := List.mem_map.mp hop
  rfl

/-- The producer loop on a topic that is not shut down, with all ids inside
`int`: it publishes `messageAt i`, `messageAt (i+1)`, ... in this order. -/
theorem produceLoopFrom_open (n : Nat) {p : Producer} {t : Topic} (i : Nat)
    (out : List Message) (hrun : p.running_ = true) (hsd : t.isShutdown_ = false)
    (hrange : ∀ k, k < n → p.inRange (i + k) = true) :
    produceLoopFrom n i p t out
      = some ({ t with messages_ := t.messages_ ++ (List.range n).map (fun k => p.messageAt (i + k)) },
          out ++ (List.range n).map (fun k => p.messageAt (i + k))) := by
  induction n generalizing i t out with
  | zero => simp [produceLoopFrom]
  | succ n ih =>
    have h0 : p.inRange i = true := by simpa using hrange 0 (Nat.succ_pos n)
    have hpub : t.publish (p.messageAt i) = { t with messages_ := t.messages_ ++ [p.messageAt i] } := by
      simp [Topic.publish, hsd]
    have hrange2 : ∀ k, k < n → p.inRange (i + 1 + k) = true := by
      intro k hk
      have := hrange (k + 1) (Nat.succ_lt_succ hk)
      rwa [show i + (k + 1) = i + 1 + k by omega] at this
    have hsd2 : (t.publish (p.messageAt i)).isShutdown_ = false := by rw [hpub]; exact hsd
    simp only [produceLoopFrom, hrun, if_true, h0]
    rw [ih (i + 1) (out ++ [p.messageAt i]) hsd2 hrange2, hpub]
    have hlist : (List.range (n + 1)).map (fun k => p.messageAt (i + k))
        = p.messageAt i :: (List.range n).map (fun k => p.messageAt (i + 1 + k)) := by
      rw [List.range_succ_eq_map, List.map_cons, List.map_map]
      simp only [Nat.add_zero, List.cons.injEq, true_and]
      apply List.map_congr_left
      intro k _
      simp only [Function.comp, Nat.succ_eq_add_one]
      rw [show i + (k + 1) = i + 1 + k by omega]
    rw [hlist]
    simp

theorem interleave_length (s : List Bool) (xs ys : List Message) :
    (interleave s xs ys).length = xs.length + ys.length := by
  induction s, xs, ys using interleave.induct with
  | case1 s ys => simp [interleave]
  | case2 s x xs => simp [interleave]
  | case3 x xs y ys => simp [interleave]; omega
  | case4 s x xs y ys ih => simp [interleave, ih]; omega
  | case5 s x xs y ys ih => simp [interleave, ih]; omega

/-- A test that holds for the messages of the first thread and fails for those
of the second picks the first thread's messages, in their order, out of every
interleaving. -/
theorem interleave_filter_left (P : Message → Bool) (s : List Bool) (xs ys : List Message)
    (hx : ∀ x ∈ xs, P x = true) (hy : ∀ y ∈ ys, P y = false) :
    (interleave s xs ys).filter P = xs := by
  have hnone : ∀ l : List Message, (∀ y ∈ l, P y = false) → l.filter P = [] := by
    intro l hl
    exact List.filter_eq_nil_iff.mpr (fun a ha => by simp [hl a ha])
  have hall : ∀ l : List Message, (∀ x ∈ l, P x = true) → l.filter P = l := by
    intro l hl
    exact List.filter_eq_self.mpr hl
  induction s, xs, ys using interleave.induct with
  | case1 s ys => simpa [interleave] using hnone ys hy
  | case2 s x xs => simpa [interleave] using hall (x :: xs) hx
  | case3 x xs y ys =>
    simp only [interleave]
    rw [List.filter_append, hall (x :: xs) hx, hnone (y :: ys) hy, List.append_nil]
  | case4 s x xs y ys ih =>
    simp only [interleave]
    have hx0 : P x = true := hx x (List.mem_cons_self _ _)
    rw [List.filter_cons_of_pos hx0, ih (fun a ha => hx a (List.mem_cons_of_mem _ ha)) hy]
  | case5 s x xs y ys ih =>
    simp only [interleave]
    have hy0 : ¬ P y = true := by simp [hy y (List.mem_cons_self _ _)]
    rw [List.filter_cons_of_neg hy0, ih hx (fun a ha => hy a (List.mem_cons_of_mem _ ha))]

theorem interleave_filter_right (P : Message → Bool) (s : List Bool) (xs ys : List Message)
    (hx : ∀ x ∈ xs, P x = false) (hy : ∀ y ∈ ys, P y = true) :
    (interleave s xs ys).filter P = ys := by
  have hnone : ∀ l : List Message, (∀ y ∈ l, P y = false) → l.filter P = [] := by
    intro l hl
    exact List.filter_eq_nil_iff.mpr (fun a ha => by simp [hl a ha])
  have hall : ∀ l : List Message, (∀ x ∈ l, P x = true) → l.filter P = l := by
    intro l hl
    exact List.filter_eq_self.mpr hl
  induction s, xs, ys using interleave.induct with
  | case1 s ys => simpa [interleave] using hall ys hy
  | case2 s x xs => simpa [interleave] using hnone (x :: xs) hx
  | case3 x xs y ys =>
    simp only [interleave]
    rw [List.filter_append, hnone (x :: xs) hx, hall (y :: ys) hy, List.nil_append]
  | case4 s x xs y ys ih =>
    simp only [interleave]
    have hx0 : ¬ P x = true := by simp [hx x (List.mem_cons_self _ _)]
    rw [List.filter_cons_of_neg hx0, ih (fun a ha => hx a (List.mem_cons_of_mem _ ha)) hy]
  | case5 s x xs y ys ih =>
    simp only [interleave]
    have hy0 : P y = true := hy y (List.mem_cons_self _ _)
    rw [List.filter_cons_of_pos hy0, ih hx (fun a ha => hy a (List.mem_cons_of_mem _ ha))]

/-! ## Claims about the consumer loop, the producer loop and `main` -/

/-- C27: for a producer with id `p` and name `N` whose `running_` stays true,
run with `count` on a topic that is not shut down, with every `p*1000 + i`
inside `int`: `Producer::produceLoop` publishes exactly `n = count` messages
(none for a negative count), appended to the log in increasing `i`, the i-th
(`i = 0..n-1`) having id `p*1000 + i` and payload `N + "_msg_" + decimal(i)`.
Producers 1 and 2 of `main` with count 5 publish ids 1000..1004 and 2000..2004,
and in every interleaving of their publishes on a fresh topic each of the two
id sequences is in increasing order in the log. -/
theorem produceLoop_publishes (p : Producer) (t : Topic) (count : Int)
    (hrun : p.running_ = true) (hsd : t.isShutdown_ = false)
    (hrange : ∀ i, i < count.toNat → p.inRange i = true) :
    p.produceLoop t count
      = some ({ t with messages_ := t.messages_ ++ p.messages count.toNat },
          p.messages count.toNat) ∧
    (p.messages count.toNat).length = count.toNat ∧
    (∀ i, i < count.toNat →
      (p.messages count.toNat)[i]?
        = some ⟨p.id_ * 1000 + i, p.name_ ++ "_msg_" ++ toString i⟩) ∧
    (mainProducer1.messages 5).map (fun m => m.id_) = [1000, 1001, 1002, 1003, 1004] ∧
    (mainProducer2.messages 5).map (fun m => m.id_) = [2000, 2001, 2002, 2003, 2004] ∧
    (∀ (sched : List Bool) (name : String), ∃ t1 rs,
      run (Topic.init name)
          ((interleave sched (mainProducer1.messages 5) (mainProducer2.messages 5)).map
            Op.publish) = some (t1, rs) ∧
        (t1.messages_.filter (fun m => decide (1000 ≤ m.id_ ∧ m.id_ ≤ 1004))).map
            (fun m => m.id_) = [1000, 1001, 1002, 1003, 1004] ∧
        (t1.messages_.filter (fun m => decide (2000 ≤ m.id_ ∧ m.id_ ≤ 2004))).map
            (fun m => m.id_) = [2000, 2001, 2002, 2003, 2004]) := by
  refine ⟨?_, by simp [Producer.messages], ?_, by decide, by decide, ?_⟩
  · have h := @produceLoopFrom_open count.toNat p t 0 [] hrun hsd
      (by intro k hk; simpa using hrange k hk)
    simpa [Producer.produceLoop, Producer.messages] using h
  · intro i hi
    simp [Producer.messages, Producer.messageAt, List.getElem?_range hi]
  · intro sched name
    obtain ⟨t1, rs, hrun1, _, hlog1, _, _⟩ := run_publishes (init_WF name) rfl
      (interleave sched (mainProducer1.messages 5) (mainProducer2.messages 5))
    refine ⟨t1, rs, hrun1, ?_, ?_⟩
    · rw [hlog1]
      show (List.filter _ ([] ++ _)).map _ = _
      rw [List.nil_append, interleave_filter_left _ sched _ _ (by decide) (by decide)]
      decide
    · rw [hlog1]
      show (List.filter _ ([] ++ _)).map _ = _
      rw [List.nil_append, interleave_filter_right _ sched _ _ (by decide) (by decide)]
      decide

/-- Witness for C27 : producer `(1, "P1")` of `main` with count 5 on the fresh
topic `news`. -/
theorem produceLoop_publishes_witness :
    mainProducer1.produceLoop (Topic.init "news") 5
      = some ({ Topic.init "news" with
                  messages_ := (Topic.init "news").messages_
                    ++ mainProducer1.messages (5 : Int).toNat },
          mainProducer1.messages (5 : Int).toNat) :=
  (produceLoop_publishes mainProducer1 (Topic.init "news") 5 (by decide) (by decide)
    (by decide)).1

/-- C23: the scenario of `main`.  On the fresh topic `news` with consumers 1,
2, 3 registered by `start`, for every interleaving of the 5 messages of
producer 1 (ids 1000..1004) with the 5 messages of producer 2 (ids
2000..2004), followed by `shutdown()`: the log holds the 10 messages in
publish order, the consume loop of each consumer, run with count 10 and
`running_` true, finishes with `messagesReceived_ = 10` having been handed the
whole log in order, and in it the ids 1000..1004 and the ids 2000..2004 each
appear in increasing order. -/
theorem concrete_scenario (sched : List Bool) :
    mainStarted.1 = Topic.mk "news" [] false [1, 2, 3] [0, 0, 0] ∧
    ∃ t0 rs,
      run mainStarted.1
          ((interleave sched (mainProducer1.messages 5) (mainProducer2.messages 5)).map
              Op.publish ++ [Op.shutdown]) = some (t0, rs) ∧
      t0.messages_ = interleave sched (mainProducer1.messages 5) (mainProducer2.messages 5) ∧
      t0.messages_.length = 10 ∧
      (∃ t1 c1 t2 c2 t3 c3,
        mainStarted.2.1.consumeLoop t0 10 = .finished t1 c1 t0.messages_ ∧
        c1.messagesReceived_ = 10 ∧
        mainStarted.2.2.1.consumeLoop t1 10 = .finished t2 c2 t0.messages_ ∧
        c2.messagesReceived_ = 10 ∧
        mainStarted.2.2.2.consumeLoop t2 10 = .finished t3 c3 t0.messages_ ∧
        c3.messagesReceived_ = 10) ∧
      (t0.messages_.filter (fun m => decide (1000 ≤ m.id_ ∧ m.id_ ≤ 1004))).map
          (fun m => m.id_) = [1000, 1001, 1002, 1003, 1004] ∧
      (t0.messages_.filter (fun m => decide (2000 ≤ m.id_ ∧ m.id_ ≤ 2004))).map
          (fun m => m.id_) = [2000, 2001, 2002, 2003, 2004] := by
  refine ⟨rfl, ?_⟩
  have hwf : mainStarted.1.WF := by decide
  obtain ⟨tp, rsp, hrunp, hwfp, hlogp, hsdp, hcurp⟩ := run_publishes hwf rfl
    (interleave sched (mainProducer1.messages 5) (mainProducer2.messages 5))
  have hlog : tp.shutdown.messages_
      = interleave sched (mainProducer1.messages 5) (mainProducer2.messages 5) := by
    show tp.messages_ = _
    rw [hlogp]
    rfl
  have hlen : tp.shutdown.messages_.length = 10 := by
    rw [hlog, interleave_length]
    rfl
  have hc1 : tp.shutdown.cursor mainStarted.2.1.id_ = some 0 := hcurp 1 0 (by decide)
  have hc2 : tp.shutdown.cursor mainStarted.2.2.1.id_ = some 0 := hcurp 2 0 (by decide)
  have hc3 : tp.shutdown.cursor mainStarted.2.2.2.id_ = some 0 := hcurp 3 0 (by decide)
  have loop : ∀ (c : Consumer) (t : Topic), c.running_ = true → c.messagesReceived_ = 0 →
      t.isShutdown_ = true → t.messages_ = tp.shutdown.messages_ →
      t.cursor c.id_ = some 0 →
      ∃ t1 c1, c.consumeLoop t 10 = .finished t1 c1 tp.shutdown.messages_ ∧
        c1.messagesReceived_ = 10 ∧ t1.messages_ = tp.shutdown.messages_ ∧
        t1.isShutdown_ = true ∧
        ∀ other, other ≠ c.id_ → t1.cursor other = t.cursor other := by
    intro c t hr hm hs hl hc
    have hl10 : t.messages_.length = 10 := by rw [hl]; exact hlen
    obtain ⟨t1, hloop, _, hlog1, hsd1, hoth1, _⟩ :=
      @consumeLoopFrom_closed 10 c t 0 [] hr hs hc
        (by rw [hm, hl10]; decide)
    refine ⟨t1, { c with messagesReceived_ :=
      c.messagesReceived_ + ((min 10 (t.messages_.length - 0) : Nat) : Int) },
      ?_, ?_, by rw [hlog1, hl], hsd1, hoth1⟩
    · show consumeLoopFrom 10 c t [] = _
      rw [hloop, ← hl]
      have htake : List.take 10 (List.drop 0 t.messages_) = t.messages_ := by
        rw [List.drop_zero]
        exact List.take_of_length_le (by omega)
      rw [List.nil_append, htake]
    · show c.messagesReceived_ + ((min 10 (t.messages_.length - 0) : Nat) : Int) = 10
      rw [hm, hl10]
      decide
  obtain ⟨t1, c1, hl1, hm1, hlog1, hsd1, hoth1⟩ :=
    loop mainStarted.2.1 tp.shutdown rfl rfl rfl rfl hc1
  have hc2b : t1.cursor mainStarted.2.2.1.id_ = some 0 := by
    rw [hoth1 _ (by decide)]; exact hc2
  have hc3b : t1.cursor mainStarted.2.2.2.id_ = some 0 := by
    rw [hoth1 _ (by decide)]; exact hc3
  obtain ⟨t2, c2, hl2, hm2, hlog2, hsd2, hoth2⟩ :=
    loop mainStarted.2.2.1 t1 rfl rfl hsd1 hlog1 hc2b
  have hc3c : t2.cursor mainStarted.2.2.2.id_ = some 0 := by
    rw [hoth2 _ (by decide)]; exact hc3b
  obtain ⟨t3, c3, hl3, hm3, _, _, _⟩ :=
    loop mainStarted.2.2.2 t2 rfl rfl hsd2 hlog2 hc3c
  refine ⟨tp.shutdown, rsp ++ [Ret.done], run_append_of hrunp (run_cons_of rfl rfl), hlog, hlen,
    ⟨t1, c1, t2, c2, t3, c3, hl1, hm1, hl2, hm2, hl3, hm3⟩, ?_, ?_⟩
  · rw [hlog, interleave_filter_left _ sched _ _ (by decide) (by decide)]
    decide
  · rw [hlog, interleave_filter_right _ sched _ _ (by decide) (by decide)]
    decide

end PubSub
